import Mathlib

/-!
# A chunked-response CGI web server: verification of `main.cpp`

The development embeds the string-processing core of `main.cpp` in Lean and
proves properties of it.

Modelling conventions.

* A `std::string` is the list of its bytes; the byte with value `n` is the
  character `Char.ofNat n`, so `List.length` is `std::string::size`.
* A `std::ostream` is the list of bytes written to it so far; a function that
  writes takes the stream and returns the extended stream.
* A `std::istream` is the list of bytes not yet read.
* `size_t` is a natural number below `2 ^ 64`; `std::string::npos` is
  `2 ^ 64 - 1`.  `int` is an integer; the conversion `size_t → int` keeps the
  low 32 bits and reads them as two's complement (`toInt`), the conversion
  `int → size_t` reduces modulo `2 ^ 64` (`toSizeT`).  Arithmetic on `int` is
  exact (signed overflow is undefined in the source language).  The result of
  `find_first_of`, which the source only compares with `npos` and uses as an
  index, is an `Option`, with `none` for `npos`.
* A C++ exception is a value of `Failure`; a function that may throw returns
  `Except Failure _`, or an `Outcome` when it has written to a stream before.
* The operating system is a parameter: `child argv` is the pair of the bytes
  that the process started with `argv` writes to its standard output and the
  status that `waitpid` stores for it.
-/

namespace WebServer

/-! ## Library primitives used by the source -/

/-- Exceptions raised by the standard-library calls of the source. -/
inductive Failure where
  | out_of_range
  | invalid_argument
  deriving DecidableEq, Repr

deriving instance DecidableEq for Except

/-- The value `std::string::npos`, the largest `size_t`. -/
def npos : Nat := 2 ^ 64 - 1

/-- Conversion `size_t → int` as in `int pos = line.find(..)`: the low 32 bits
read as a two's-complement number, so `npos` becomes `-1`. -/
def toInt (n : Nat) : Int :=
  if n % 2 ^ 32 < 2 ^ 31 then ((n % 2 ^ 32 : Nat) : Int)
  else ((n % 2 ^ 32 : Nat) : Int) - 2 ^ 32

/-- Conversion `int → size_t` at a call such as `substr(pos1 + 5, diff - 5)`:
reduction modulo `2 ^ 64`, so a negative count becomes a huge one. -/
def toSizeT (i : Int) : Nat := (i % 2 ^ 64).toNat

/-- Search of `std::string::find`: `findAt pat s i` is `i` plus the index of
the first occurrence of `pat` in `s`, and `npos` when `pat` does not occur. -/
def findAt (pat : List Char) : List Char → Nat → Nat
  | [], i => if pat = [] then i else npos
  | c :: cs, i => if pat.isPrefixOf (c :: cs) then i else findAt pat cs (i + 1)

/-- The call `s.find(pat)`: index of the first occurrence, or `npos`. -/
def find (s pat : List Char) : Nat := findAt pat s 0

/-- The call `s.substr(pos, n)`: raises `out_of_range` when `pos > s.size()`,
otherwise the at most `n` bytes from index `pos` on. -/
def substr (s : List Char) (pos n : Nat) : Except Failure (List Char) :=
  if s.length < pos then .error .out_of_range else .ok ((s.drop pos).take n)

/-- The call `s.at(pos)`: raises `out_of_range` when `pos >= s.size()`. -/
def charAt (s : List Char) (pos : Nat) : Except Failure Char :=
  match s.get? pos with
  | some c => .ok c
  | none => .error .out_of_range

/-- The calls `s.replace(pos, len, r)` and `s.replace(pos, len, n, c)` (with
`r` the `n` copies of `c`): the bytes `[pos, pos + len)`, cut at the end of the
string, are replaced by `r`; raises `out_of_range` when `pos > s.size()`. -/
def replace (s : List Char) (pos len : Nat) (r : List Char) : Except Failure (List Char) :=
  if s.length < pos then .error .out_of_range else .ok (s.take pos ++ r ++ s.drop (pos + len))

/-- The call `s.find_first_of(chars, pos)`: the least index `i ≥ pos` with
`s[i]` among `chars`; the result `npos` (nothing found) is `none`. -/
def find_first_of (s chars : List Char) (pos : Nat) : Option Nat :=
  match (s.drop pos).findIdx? (fun c => chars.contains c) with
  | some i => some (pos + i)
  | none => none

/-- The classification `isspace` of the "C" locale. -/
def isspace (c : Char) : Bool :=
  c == ' ' || c == '\t' || c == '\n' || c == '\x0b' || c == '\x0c' || c == '\r'

/-- Value of a hexadecimal digit, either case; `none` for any other byte. -/
def hexVal (c : Char) : Option Nat :=
  if '0' ≤ c ∧ c ≤ '9' then some (c.toNat - 48)
  else if 'a' ≤ c ∧ c ≤ 'f' then some (c.toNat - 87)
  else if 'A' ≤ c ∧ c ≤ 'F' then some (c.toNat - 55)
  else none

/-- The classification `isxdigit`. -/
def isxdigit (c : Char) : Bool := (hexVal c).isSome

/-- Value of a run of hexadecimal digits, most significant first. -/
def hexValue (ds : List Char) : Nat :=
  ds.foldl (fun a c => 16 * a + (hexVal c).getD 0) 0

/-- The call `std::stoi(s, nullptr, 16)`, which goes through `strtol`: leading
white space is skipped, then an optional sign, then an optional `0x` or `0X`,
then the longest run of hexadecimal digits is converted.  With no digit at all
the call raises `invalid_argument`, except that after a `0x` the lone `0` is
the number read; a value outside `int` raises `out_of_range`. -/
def stoi (s : List Char) : Except Failure Int :=
  let s1 := s.dropWhile isspace
  let signed : Bool × List Char :=
    match s1 with
    | c :: r => if c = '-' then (true, r) else if c = '+' then (false, r) else (false, s1)
    | [] => (false, s1)
  let s2 := signed.2
  let prefixed : Bool × List Char :=
    match s2 with
    | c :: x :: r => if c = '0' ∧ (x = 'x' ∨ x = 'X') then (true, r) else (false, s2)
    | _ => (false, s2)
  let ds := prefixed.2.takeWhile isxdigit
  if ds = [] then
    if prefixed.1 then .ok 0 else .error .invalid_argument
  else
    let v : Int := if signed.1 then - (hexValue ds : Int) else (hexValue ds : Int)
    if v < - 2 ^ 31 ∨ 2 ^ 31 - 1 < v then .error .out_of_range else .ok v

/-- The narrowing `char ascii = n` of an `int`: the byte `n mod 256`. -/
def toChar (v : Int) : Char := Char.ofNat (v % 256).toNat

/-- Digit character of `d < 16` as an output stream prints it (lowercase). -/
def digitChar (d : Nat) : Char := Char.ofNat (if d < 10 then 48 + d else 87 + d)

/-- Digits of `n` in base `base`, most significant first, put before `acc`;
`fuel` bounds the number of digits. -/
def digitsCore (base : Nat) : Nat → Nat → List Char → List Char
  | 0, _, acc => acc
  | fuel + 1, n, acc =>
    if n / base = 0 then digitChar (n % base) :: acc
    else digitsCore base fuel (n / base) (digitChar (n % base) :: acc)

/-- Text of `os << std::hex << n` for a `size_t`: lowercase, no `0x`. -/
def toHex (n : Nat) : List Char := digitsCore 16 (n + 1) n []

/-- Text of `std::to_string(n)` and of `os << std::dec << n` for an `int`. -/
def to_string (n : Int) : List Char :=
  if n < 0 then '-' :: digitsCore 10 (n.natAbs + 1) n.natAbs []
  else digitsCore 10 (n.natAbs + 1) n.natAbs []

/-- The formatted extraction `is >> str` of a `std::string`: white space is
skipped, then the bytes up to the next white space or the end are read; the
stream fails (`none`) when no byte could be read.  The result is the string
read and the rest of the stream. -/
def readWord (is : List Char) : Option (List Char × List Char) :=
  let s := is.dropWhile isspace
  let w := s.takeWhile (fun c => !isspace c)
  if w = [] then none else some (w, s.dropWhile (fun c => !isspace c))

/-- The loop of the `std::quoted` extractor after the opening delimiter, white
space no longer skipped: a backslash makes the next byte literal, the
delimiter `"` ends the token, any other byte is appended.  Reaching the end of
the stream before the closing delimiter leaves the stream failed (`none`). -/
def readQuotedBody : List Char → List Char → Option (List Char × List Char)
  | [], _ => none
  | c :: rest, acc =>
    if c = '\\' then
      match rest with
      | [] => none
      | d :: rest2 => readQuotedBody rest2 (acc ++ [d])
    else if c = '"' then some (acc, rest)
    else readQuotedBody rest (acc ++ [c])

/-- The extraction `is >> std::quoted(each)`: the first byte after white space
decides; a `"` starts a quoted token, any other byte is put back and a plain
word is read.  `none` when the stream has failed after the extraction. -/
def readQuoted (is : List Char) : Option (List Char × List Char) :=
  match is.dropWhile isspace with
  | [] => none
  | c :: rest => if c = '"' then readQuotedBody rest [] else readWord (c :: rest)

/-- The loop `while (ss >> std::quoted(each)) result.push_back(each);` of
`extractData`, the tokens in the order pushed; every round that succeeds
reads at least one byte, so `fuel` above the length of `is` is never used up. -/
def tokenizeLoop : Nat → List Char → List (List Char)
  | 0, _ => []
  | fuel + 1, is =>
    match readQuoted is with
    | none => []
    | some (each, rest) => each :: tokenizeLoop fuel rest

/-- The tokens that `extractData` pushes for the decoded argument string. -/
def tokenize (decArgm : List Char) : List (List Char) :=
  tokenizeLoop (decArgm.length + 1) decArgm

/-- The call `std::getline(is, line)`: `none` when the stream is at its end
(the call fails); otherwise the bytes up to the next `'\n'`, which is read and
dropped, or up to the end of the stream. -/
def getline (is : List Char) : Option (List Char × List Char) :=
  match is with
  | [] => none
  | _ :: _ => some (is.takeWhile (fun c => c ≠ '\n'), (is.dropWhile (fun c => c ≠ '\n')).drop 1)

/-! ## The functions of `main.cpp` -/

/-- The `switch` statement in the loop of `url_decode`, run with `pos` at a
`+` or a `%`: the string after the replacement. -/
def url_decode_switch (str : List Char) (pos : Nat) : Except Failure (List Char) := do
  let c ← charAt str pos
  if c = '+' then replace str pos 1 [' ']
  else if c = '%' then do
    let hex ← substr str (pos + 1) 2
    let ascii ← stoi hex
    replace str pos 3 [toChar ascii]
  else pure str

/-- The loop of `url_decode`: `str` is the string being rewritten in place,
`pos` the scan position; every round moves `pos` forward, so `fuel` above the
length of `str` is never used up. -/
def url_decode_loop : Nat → List Char → Nat → Except Failure (List Char)
  | 0, str, _ => .ok str
  | fuel + 1, str, pos =>
    match find_first_of str ['%', '+'] pos with
    | none => .ok str
    | some pos => do
      let str ← url_decode_switch str pos
      url_decode_loop fuel str (pos + 1)

/-- The function `url_decode` of the source. -/
def url_decode (str : List Char) : Except Failure (List Char) :=
  url_decode_loop (str.length + 1) str 0

/-- The function `printRegular`: the three header lines and the blank line. -/
def printRegular (os : List Char) : List Char :=
  let content := "Content-Type: text/plain\r\n".toList
  let transEnc := "Transfer-Encoding: chunked\r\n".toList
  let conn := "Connection: Close\r\n".toList
  os ++ content ++ transEnc ++ conn ++ "\r\n".toList

/-- What a function that writes to the client stream leaves behind: the
stream after the call, and the exception that ended the call, if any. -/
structure Outcome where
  os : List Char
  failure : Option Failure
  deriving DecidableEq, Repr

/-- The function `errorCase` of the source. -/
def errorCase (line : List Char) (os : List Char) : Outcome :=
  let pos1 : Int := toInt (find line "GET ".toList)
  let pos2 : Int := toInt (find line "HTTP/1.1".toList)
  let diff : Int := pos2 - pos1
  match substr line (toSizeT (pos1 + 5)) (toSizeT (diff - 5)) with
  | .error e => ⟨os, some e⟩
  | .ok fileName =>
    let message := "Invalid request: ".toList ++ fileName
    let os := os ++ toHex message.length ++ "\r\n".toList
    let os := os ++ "Invalid request: ".toList ++ fileName ++ "\n".toList
    let os := os ++ "\r\n".toList
    let os := os ++ "0\r\n\r\n".toList
    ⟨os, none⟩

/-- The loop of `outputSizeAndData`: one chunk per line read from the child;
every round reads at least one byte, so `fuel` above the length of `is` is
never used up. -/
def outputSizeAndDataLoop : Nat → List Char → List Char → List Char
  | 0, _, os => os
  | fuel + 1, is, os =>
    match getline is with
    | none => os
    | some (line, is) =>
      let line := line ++ "\n".toList
      let os := os ++ toHex line.length ++ "\r\n".toList
      let os := os ++ line ++ "\r\n".toList
      outputSizeAndDataLoop fuel is os

/-- The function `outputSizeAndData` of the source. -/
def outputSizeAndData (is : List Char) (os : List Char) : List Char :=
  outputSizeAndDataLoop (is.length + 1) is os

/-- The function `OutputChildProcess` of the source, parent side: `child myVec`
gives the bytes the child writes into the pipe and the status that `waitpid`
stores in `exitCode`. -/
def OutputChildProcess (child : List (List Char) → List Char × Int)
    (myVec : List (List Char)) (os : List Char) : List Char :=
  let is := (child myVec).1
  let os := outputSizeAndData is os
  let exitCode : Int := (child myVec).2
  let message := "Exit code: ".toList ++ to_string exitCode
  let os := os ++ toHex message.length ++ "\r\n".toList
  let os := os ++ "Exit code: ".toList ++ to_string exitCode ++ "\r\n".toList
  os ++ "0\r\n\r\n".toList

/-- The function `extractData` of the source. -/
def extractData (line : List Char) : Except Failure (List (List Char)) := do
  let pos1 : Int := toInt (find line "=".toList)
  let pos2 : Int := toInt (find line "&".toList)
  let cmdLength : Int := pos2 - pos1
  let cmd ← substr line (toSizeT (pos1 + 1)) (toSizeT (cmdLength - 1))
  let decCmd ← url_decode cmd
  let result := [decCmd]
  let pos3 : Int := toInt (find line "args=".toList)
  let pos4 : Int := toInt (find line "HTTP".toList)
  let argmLength : Int := pos4 - pos3
  let argm ← substr line (toSizeT (pos3 + 5)) (toSizeT (argmLength - 5))
  let decArgm ← url_decode argm
  pure (result ++ tokenize decArgm)

/-- The function `stringProcessing` of the source. -/
def stringProcessing (child : List (List Char) → List Char × Int)
    (line : List Char) (os : List Char) : Outcome :=
  match substr line 0 17 with
  | .error e => ⟨os, some e⟩
  | .ok str =>
    if str = "GET /cgi-bin/exec".toList then
      let os := os ++ "HTTP/1.1 200 OK\r\n".toList
      let os := printRegular os
      match extractData line with
      | .error e => ⟨os, some e⟩
      | .ok result => ⟨OutputChildProcess child result os, none⟩
    else
      let os := os ++ "HTTP/1.1 404 Not Found\r\n".toList
      let os := printRegular os
      errorCase line os

/-- The lines that repeated `std::getline` calls split a stream into, as
`outputSizeAndData` reads them. -/
def getlinesLoop : Nat → List Char → List (List Char)
  | 0, _ => []
  | fuel + 1, is =>
    match getline is with
    | none => []
    | some (line, is) => line :: getlinesLoop fuel is

/-- The lines of a whole stream. -/
def getlines (is : List Char) : List (List Char) := getlinesLoop (is.length + 1) is

/-- Value of a lowercase hexadecimal digit; `none` for any other byte. -/
def lowerHexVal (c : Char) : Option Nat :=
  if '0' ≤ c ∧ c ≤ '9' then some (c.toNat - 48)
  else if 'a' ≤ c ∧ c ≤ 'f' then some (c.toNat - 87)
  else none

/-- Whether a byte is a lowercase hexadecimal digit. -/
def isLowerHex (c : Char) : Bool := (lowerHexVal c).isSome

/-- Value of a run of lowercase hexadecimal digits. -/
def lowerHexValue (ds : List Char) : Nat :=
  ds.foldl (fun a c => 16 * a + (lowerHexVal c).getD 0) 0

/-- The rest of the input after a leading CRLF, `none` when there is none. -/
def stripCRLF : List Char → Option (List Char)
  | c :: d :: rest => if c = '\r' ∧ d = '\n' then some rest else none
  | _ => none

/-- Strict decoder of a chunked-transfer body: a chunk is a non-empty run of
lowercase hexadecimal digits (the length), CRLF, exactly that many payload
bytes, CRLF; the body ends with the chunk `0`, CRLF, CRLF and nothing after
it.  The result lists each chunk as its length field and its payload; `none`
when the input is not of this form. -/
def chunkedDecodeLoop : Nat → List Char → Option (List (Nat × List Char))
  | 0, _ => none
  | fuel + 1, bytes =>
    let ds := bytes.takeWhile isLowerHex
    if ds = [] then none
    else
      match stripCRLF (bytes.dropWhile isLowerHex) with
      | none => none
      | some r =>
        let n := lowerHexValue ds
        if n = 0 then
          if ds = ['0'] ∧ r = ['\r', '\n'] then some [] else none
        else if r.length < n then none
        else
          match stripCRLF (r.drop n) with
          | none => none
          | some r2 => (chunkedDecodeLoop fuel r2).map (fun cs => (n, r.take n) :: cs)

/-- Strict chunked decoding of a whole body. -/
def chunkedDecode (bytes : List Char) : Option (List (Nat × List Char)) :=
  chunkedDecodeLoop (bytes.length + 1) bytes

/-- Reference single-pass decoder: `+` becomes a space, `%` followed by two
bytes becomes the byte whose value the two hexadecimal digits give, any other
byte is kept; the output is never looked at again. -/
def refDecode : List Char → List Char
  | [] => []
  | c :: rest =>
    if c = '+' then ' ' :: refDecode rest
    else if c = '%' then
      match rest with
      | a :: b :: rest2 =>
        Char.ofNat (16 * (hexVal a).getD 0 + (hexVal b).getD 0) :: refDecode rest2
      | _ => [c]
    else c :: refDecode rest

/-- Every `%` that the left-to-right scan meets (a `%` that is not itself one
of the two bytes after an earlier `%`) is followed by two hexadecimal digits. -/
def WellEncoded : List Char → Bool
  | [] => true
  | c :: rest =>
    if c = '%' then
      match rest with
      | a :: b :: rest2 => isxdigit a && isxdigit b && WellEncoded rest2
      | _ => false
    else WellEncoded rest

/-- A byte that the scan of `url_decode` stops at. -/
def isEscape (c : Char) : Bool := c = '%' || c = '+'

/-- Puts bytes in front of a result, keeping a failure. -/
def prependOk (pre : List Char) : Except Failure (List Char) → Except Failure (List Char)
  | .error e => .error e
  | .ok r => .ok (pre ++ r)

/-- The scan of `url_decode` told on the part of the string not yet visited:
what the loop turns the bytes from the scan position on into.  A `+` is
replaced by a space; a `%` is replaced, together with the up to two bytes
after it, by the byte that `stoi` reads from these bytes; the scan goes on
after the replaced bytes. -/
def decodeRest : List Char → Except Failure (List Char)
  | [] => .ok []
  | c :: rest =>
    if c = '%' then
      match stoi (rest.take 2) with
      | .error e => .error e
      | .ok v => prependOk [toChar v] (decodeRest (rest.drop 2))
    else prependOk [if c = '+' then ' ' else c] (decodeRest rest)
termination_by l => l.length
decreasing_by
  all_goals simp_wf
  all_goals omega

/-- Number of places of a string at which a pattern occurs. -/
def occurrences (pat s : List Char) : Nat :=
  s.tails.countP (fun t => pat.isPrefixOf t)

/-- One chunk frame: length in hexadecimal, CRLF, payload, CRLF. -/
def frame (payload : List Char) : List Char :=
  toHex payload.length ++ "\r\n".toList ++ payload ++ "\r\n".toList

/-- The frames of a list of payloads, one after the other. -/
def frames : List (List Char) → List Char
  | [] => []
  | c :: cs => frame c ++ frames cs

/-- Whether the up to two bytes after a `%` spell no number for `stoi`:
there is no byte, or the first byte is not a hexadecimal digit and is not a
white-space byte or a sign that a hexadecimal digit follows. -/
def noNumber : List Char → Bool
  | [] => true
  | [a] => !isxdigit a
  | a :: b :: _ => !isxdigit a && !((isspace a || a == '-' || a == '+') && isxdigit b)

/-- Whether the left-to-right scan of `url_decode` meets a `%` whose following
bytes spell no number; after a `%` that does decode, the scan goes on behind
the two bytes after it. -/
def BadEscape : List Char → Bool
  | [] => false
  | c :: rest =>
    if c = '%' then
      match rest with
      | a :: b :: rest2 => noNumber [a, b] || BadEscape rest2
      | _ => noNumber rest
    else BadEscape rest

/-- The maximal runs of bytes that are not white space, in order: the string
is split at every white-space byte and the empty pieces are left out. -/
def nonSpaceRuns (s : List Char) : List (List Char) :=
  (s.splitOnP isspace).filter (fun w => !w.isEmpty)

/-- A run of `2 ^ 31` bytes `z`: a request line that holds it has positions
that the type `int` of the source cannot hold. -/
def longPad : List Char := List.replicate (2 ^ 31) 'z'

/-! ## Printing and reading numbers -/

theorem digitsCore_append (base : Nat) (fuel n : Nat) (acc : List Char) :
    digitsCore base fuel n acc = digitsCore base fuel n [] ++ acc := by
  induction fuel generalizing n acc with
  | zero => simp [digitsCore]
  | succ fuel ih =>
    simp only [digitsCore]
    split
    · simp
    · rw [ih (n / base) (digitChar (n % base) :: acc), ih (n / base) [digitChar (n % base)]]
      simp

theorem lowerHexVal_digitChar (d : Nat) (h : d < 16) : lowerHexVal (digitChar d) = some d := by
  interval_cases d <;> decide

theorem isLowerHex_digitChar (d : Nat) (h : d < 16) : isLowerHex (digitChar d) = true := by
  simp [isLowerHex, lowerHexVal_digitChar d h]

theorem digitsCore_hex_all (fuel n : Nat) :
    ∀ c ∈ digitsCore 16 fuel n [], isLowerHex c = true := by
  induction fuel generalizing n with
  | zero => simp [digitsCore]
  | succ fuel ih =>
    intro c hc
    simp only [digitsCore] at hc
    split at hc
    · simp only [List.mem_singleton] at hc
      subst hc
      exact isLowerHex_digitChar _ (Nat.mod_lt _ (by decide))
    · rw [digitsCore_append] at hc
      rcases List.mem_append.mp hc with h | h
      · exact ih _ c h
      · simp only [List.mem_singleton] at h
        subst h
        exact isLowerHex_digitChar _ (Nat.mod_lt _ (by decide))

theorem digitsCore_ne_nil (base fuel n : Nat) : digitsCore base (fuel + 1) n [] ≠ [] := by
  simp only [digitsCore]
  split
  · simp
  · rw [digitsCore_append]
    simp

theorem lowerHexValue_append_singleton (ds : List Char) (c : Char) :
    lowerHexValue (ds ++ [c]) = 16 * lowerHexValue ds + (lowerHexVal c).getD 0 := by
  simp [lowerHexValue, List.foldl_append]

theorem lowerHexValue_digitsCore (fuel n : Nat) (h : n < fuel) :
    lowerHexValue (digitsCore 16 fuel n []) = n := by
  induction fuel generalizing n with
  | zero => omega
  | succ fuel ih =>
    simp only [digitsCore]
    split
    · rename_i h0
      have hlt : n < 16 := (Nat.div_eq_zero_iff (by decide)).mp h0
      simp [lowerHexValue, Nat.mod_eq_of_lt hlt, lowerHexVal_digitChar _ hlt]
    · rename_i h0
      have hge : 16 ≤ n := by
        by_contra hc
        exact h0 (Nat.div_eq_of_lt (by omega))
      have hdiv : n / 16 < fuel := by
        have : n / 16 < n := Nat.div_lt_self (by omega) (by decide)
        omega
      rw [digitsCore_append, lowerHexValue_append_singleton, ih _ hdiv,
        lowerHexVal_digitChar _ (Nat.mod_lt n (by decide : 0 < 16))]
      simp only [Option.getD_some]
      omega

theorem toHex_ne_nil (n : Nat) : toHex n ≠ [] := digitsCore_ne_nil 16 n n

theorem toHex_all (n : Nat) : ∀ c ∈ toHex n, isLowerHex c = true := digitsCore_hex_all _ _

theorem lowerHexValue_toHex (n : Nat) : lowerHexValue (toHex n) = n :=
  lowerHexValue_digitsCore _ _ (Nat.lt_succ_self n)

theorem takeWhile_toHex (n : Nat) (rest : List Char) :
    (toHex n ++ '\r' :: rest).takeWhile isLowerHex = toHex n := by
  rw [List.takeWhile_append_of_pos (toHex_all n)]
  simp [List.takeWhile, show isLowerHex '\r' = false by decide]

theorem dropWhile_toHex (n : Nat) (rest : List Char) :
    (toHex n ++ '\r' :: rest).dropWhile isLowerHex = '\r' :: rest := by
  rw [List.dropWhile_append_of_pos (toHex_all n)]
  simp [List.dropWhile, show isLowerHex '\r' = false by decide]

/-! ## Chunk frames and the strict decoder -/

theorem crlf_toList : "\r\n".toList = ['\r', '\n'] := rfl

theorem frames_append (as bs : List (List Char)) : frames (as ++ bs) = frames as ++ frames bs := by
  induction as with
  | nil => simp [frames]
  | cons a as ih => simp [frames, ih]

theorem frames_length_ge (cs : List (List Char)) : cs.length ≤ (frames cs).length := by
  induction cs with
  | nil => simp
  | cons c cs ih =>
    simp only [frames, frame, crlf_toList, List.length_append, List.length_cons, List.length_nil]
    omega

theorem chunkedDecodeLoop_frame (fuel : Nat) (payload rest : List Char) (h : payload ≠ []) :
    chunkedDecodeLoop (fuel + 1) (frame payload ++ rest)
      = (chunkedDecodeLoop fuel rest).map (fun cs => (payload.length, payload) :: cs) := by
  have hshape : frame payload ++ rest
      = toHex payload.length ++ '\r' :: ('\n' :: (payload ++ '\r' :: '\n' :: rest)) := by
    simp [frame, crlf_toList]
  have hlen : payload.length ≠ 0 := by
    intro h0
    exact h (List.length_eq_zero.mp h0)
  rw [hshape]
  simp only [chunkedDecodeLoop, takeWhile_toHex, dropWhile_toHex, lowerHexValue_toHex]
  rw [if_neg (toHex_ne_nil _)]
  simp only [stripCRLF, and_self, if_true]
  rw [if_neg hlen]
  have hnot : ¬ (payload ++ '\r' :: '\n' :: rest).length < payload.length := by
    simp
  rw [if_neg hnot]
  simp [stripCRLF]

theorem chunkedDecodeLoop_end (fuel : Nat) :
    chunkedDecodeLoop (fuel + 1) "0\r\n\r\n".toList = some [] := by
  rfl

theorem chunkedDecodeLoop_frames (cs : List (List Char)) (hne : ∀ c ∈ cs, c ≠ [])
    (fuel : Nat) (hfuel : cs.length < fuel) :
    chunkedDecodeLoop fuel (frames cs ++ "0\r\n\r\n".toList)
      = some (cs.map (fun c => (c.length, c))) := by
  induction cs generalizing fuel with
  | nil =>
    obtain ⟨k, rfl⟩ : ∃ k, fuel = k + 1 := ⟨fuel - 1, by simp at hfuel; omega⟩
    simpa [frames] using chunkedDecodeLoop_end k
  | cons c cs ih =>
    obtain ⟨k, rfl⟩ : ∃ k, fuel = k + 1 := ⟨fuel - 1, by simp at hfuel; omega⟩
    have hc : c ≠ [] := hne c (List.mem_cons_self _ _)
    have hk : cs.length < k := by simp at hfuel; omega
    simp only [frames, List.append_assoc]
    rw [chunkedDecodeLoop_frame k c _ hc, ih (fun d hd => hne d (List.mem_cons_of_mem _ hd)) k hk]
    simp

/-- A body made of frames of non-empty payloads and the zero chunk decodes,
under the strict decoder, to these payloads with their lengths. -/
theorem chunkedDecode_frames (cs : List (List Char)) (hne : ∀ c ∈ cs, c ≠ []) :
    chunkedDecode (frames cs ++ "0\r\n\r\n".toList) = some (cs.map (fun c => (c.length, c))) := by
  unfold chunkedDecode
  apply chunkedDecodeLoop_frames cs hne
  have := frames_length_ge cs
  simp only [List.length_append]
  omega

/-! ## The execution path writes frames -/

theorem outputSizeAndDataLoop_eq (fuel : Nat) (is os : List Char) :
    outputSizeAndDataLoop fuel is os
      = os ++ frames ((getlinesLoop fuel is).map (fun l => l ++ ['\n'])) := by
  induction fuel generalizing is os with
  | zero => simp [outputSizeAndDataLoop, getlinesLoop, frames]
  | succ fuel ih =>
    simp only [outputSizeAndDataLoop, getlinesLoop]
    cases hg : getline is with
    | none => simp [frames]
    | some p =>
      obtain ⟨line, rest⟩ := p
      simp only [ih, List.map_cons, frames, frame]
      simp [crlf_toList, show "\n".toList = ['\n'] from rfl]

theorem outputSizeAndData_eq (is os : List Char) :
    outputSizeAndData is os = os ++ frames ((getlines is).map (fun l => l ++ ['\n'])) :=
  outputSizeAndDataLoop_eq _ _ _

theorem OutputChildProcess_eq (child : List (List Char) → List Char × Int)
    (myVec : List (List Char)) (os : List Char) :
    OutputChildProcess child myVec os
      = os ++ (frames ((getlines (child myVec).1).map (fun l => l ++ ['\n'])
            ++ ["Exit code: ".toList ++ to_string (child myVec).2]) ++ "0\r\n\r\n".toList) := by
  simp only [OutputChildProcess, outputSizeAndData_eq, frames_append, frames, frame,
    List.append_assoc, List.append_nil]

/-! ## Reading lines: the fuel of the loops is never used up -/

theorem getlines_nil : getlines [] = [] := rfl

/-! ## The loop of `url_decode` -/

theorem charAt_append (pre post : List Char) (c : Char) :
    charAt (pre ++ c :: post) pre.length = .ok c := by
  have : (pre ++ c :: post).get? pre.length = some c := by
    rw [List.get?_eq_getElem?, List.getElem?_append_right (le_refl _)]
    simp
  simp only [charAt, this]

theorem substr_append (pre mid post : List Char) :
    substr (pre ++ mid ++ post) pre.length mid.length = .ok mid := by
  simp [substr]

theorem substr_append_short (pre mid : List Char) (n : Nat) (h : mid.length ≤ n) :
    substr (pre ++ mid) pre.length n = .ok mid := by
  simp [substr, List.take_of_length_le h]

theorem replace_append (pre mid post r : List Char) :
    replace (pre ++ mid ++ post) pre.length mid.length r = .ok (pre ++ r ++ post) := by
  simp [replace, List.take_append_eq_append_take]

theorem replace_append_short (pre mid r : List Char) (n : Nat) (h : mid.length ≤ n) :
    replace (pre ++ mid) pre.length n r = .ok (pre ++ r) := by
  have hd : List.drop (pre.length + n) (pre ++ mid) = [] := by
    apply List.drop_of_length_le
    simp only [List.length_append]
    omega
  simp [replace, hd]

theorem find_first_of_none (done rest : List Char) (h : ∀ x ∈ rest, isEscape x = false) :
    find_first_of (done ++ rest) ['%', '+'] done.length = none := by
  have hn : List.findIdx? (fun c => decide (c = '%') || decide (c = '+')) rest = none := by
    rw [List.findIdx?_eq_none_iff]
    intro x hx
    exact h x hx
  simp [find_first_of, hn]

theorem find_first_of_some (done clean rest : List Char) (c : Char)
    (h : ∀ x ∈ clean, isEscape x = false) (hc : isEscape c = true) :
    find_first_of (done ++ (clean ++ c :: rest)) ['%', '+'] done.length
      = some (done.length + clean.length) := by
  have hn : List.findIdx? (fun c => decide (c = '%') || decide (c = '+')) clean = none := by
    rw [List.findIdx?_eq_none_iff]
    intro x hx
    exact h x hx
  have hc2 : c = '%' ∨ c = '+' := by
    simpa [isEscape] using hc
  simp [find_first_of, List.findIdx?_append, hn, List.findIdx?_cons, hc2]

theorem split_at_escape (rest : List Char) :
    (∀ x ∈ rest, isEscape x = false) ∨
    ∃ clean c rest2, rest = clean ++ c :: rest2 ∧ (∀ x ∈ clean, isEscape x = false)
      ∧ isEscape c = true := by
  induction rest with
  | nil => left; simp
  | cons a rest ih =>
    by_cases ha : isEscape a = true
    · right
      exact ⟨[], a, rest, rfl, by simp, ha⟩
    · rcases ih with h | ⟨clean, c, rest2, rfl, hclean, hc⟩
      · left
        intro x hx
        rcases List.mem_cons.mp hx with rfl | hx
        · simpa using ha
        · exact h x hx
      · right
        refine ⟨a :: clean, c, rest2, rfl, ?_, hc⟩
        intro x hx
        rcases List.mem_cons.mp hx with rfl | hx
        · simpa using ha
        · exact hclean x hx

theorem prependOk_ok (pre r : List Char) : prependOk pre (.ok r) = .ok (pre ++ r) := rfl

theorem prependOk_error (pre : List Char) (e : Failure) :
    prependOk pre (.error e) = .error e := rfl

theorem prependOk_prependOk (pre mid : List Char) (r : Except Failure (List Char)) :
    prependOk pre (prependOk mid r) = prependOk (pre ++ mid) r := by
  cases r <;> simp [prependOk]

theorem prependOk_nil (r : Except Failure (List Char)) : prependOk [] r = r := by
  cases r <;> simp [prependOk]

theorem decodeRest_nil : decodeRest [] = .ok [] := by
  rw [decodeRest]

theorem decodeRest_plus (rest : List Char) :
    decodeRest ('+' :: rest) = prependOk [' '] (decodeRest rest) := by
  rw [decodeRest]
  simp

theorem decodeRest_other (c : Char) (rest : List Char) (h : isEscape c = false) :
    decodeRest (c :: rest) = prependOk [c] (decodeRest rest) := by
  simp only [isEscape, Bool.or_eq_false_iff, decide_eq_false_iff_not] at h
  rw [decodeRest]
  simp [h.1, h.2]

theorem decodeRest_percent (rest : List Char) :
    decodeRest ('%' :: rest)
      = match stoi (rest.take 2) with
        | .error e => .error e
        | .ok v => prependOk [toChar v] (decodeRest (rest.drop 2)) := by
  rw [decodeRest]
  simp

theorem decodeRest_clean_append (clean rest : List Char)
    (h : ∀ x ∈ clean, isEscape x = false) :
    decodeRest (clean ++ rest) = prependOk clean (decodeRest rest) := by
  induction clean with
  | nil => simp [prependOk_nil]
  | cons a clean ih =>
    have ha : isEscape a = false := h a (List.mem_cons_self _ _)
    have ih2 := ih (fun x hx => h x (List.mem_cons_of_mem _ hx))
    rw [List.cons_append, decodeRest_other a _ ha, ih2, prependOk_prependOk]
    rfl

theorem decodeRest_clean (clean : List Char) (h : ∀ x ∈ clean, isEscape x = false) :
    decodeRest clean = .ok clean := by
  have := decodeRest_clean_append clean [] h
  simpa [decodeRest_nil, prependOk] using this

theorem bind_ok {α β : Type} (a : α) (f : α → Except Failure β) :
    (Except.ok a >>= f) = f a := rfl

theorem bind_error {α β : Type} (e : Failure) (f : α → Except Failure β) :
    ((Except.error e : Except Failure α) >>= f) = Except.error e := rfl

theorem url_decode_switch_plus (pre rest : List Char) :
    url_decode_switch (pre ++ '+' :: rest) pre.length = .ok (pre ++ ' ' :: rest) := by
  have hr := replace_append pre ['+'] rest [' ']
  simp only [List.append_assoc, List.singleton_append, List.length_singleton] at hr
  simp only [url_decode_switch, charAt_append, bind_ok, if_true, hr]

theorem url_decode_switch_percent (pre rest : List Char) :
    url_decode_switch (pre ++ '%' :: rest) pre.length
      = match stoi (rest.take 2) with
        | .error e => .error e
        | .ok v => .ok (pre ++ toChar v :: rest.drop 2) := by
  have hs : substr (pre ++ '%' :: rest) (pre.length + 1) 2 = .ok (rest.take 2) := by
    simp [substr]
  have hr : ∀ r, replace (pre ++ '%' :: rest) pre.length 3 r = .ok (pre ++ r ++ rest.drop 2) := by
    intro r
    simp [replace]
  simp only [url_decode_switch, charAt_append, bind_ok, hs, hr]
  rw [if_neg (by decide), if_pos trivial]
  cases stoi (rest.take 2) <;> simp [bind_ok, bind_error]

theorem url_decode_loop_step (fuel : Nat) (str : List Char) (pos : Nat) :
    url_decode_loop (fuel + 1) str pos
      = (match find_first_of str ['%', '+'] pos with
        | none => .ok str
        | some pos => do
          let str ← url_decode_switch str pos
          url_decode_loop fuel str (pos + 1)) := rfl

/-- The loop of `url_decode`, started at the end of `done` in `done ++ rest`
with fuel above the length of `rest`, leaves `done` alone and turns `rest`
into what `decodeRest` says. -/
theorem url_decode_loop_eq (fuel : Nat) (done rest : List Char) (h : rest.length < fuel) :
    url_decode_loop fuel (done ++ rest) done.length = prependOk done (decodeRest rest) := by
  induction fuel generalizing done rest with
  | zero => omega
  | succ fuel ih =>
    rw [url_decode_loop_step]
    rcases split_at_escape rest with hclean | ⟨clean, c, rest2, rfl, hclean, hc⟩
    · rw [find_first_of_none done rest hclean, decodeRest_clean rest hclean]
      rfl
    · rw [find_first_of_some done clean rest2 c hclean hc, decodeRest_clean_append _ _ hclean,
        prependOk_prependOk]
      have hstr : done ++ (clean ++ c :: rest2) = (done ++ clean) ++ c :: rest2 := by simp
      have hp : done.length + clean.length = (done ++ clean).length := by simp
      have hlen : rest2.length < fuel := by
        simp only [List.length_append, List.length_cons] at h
        omega
      rw [hstr, hp]
      generalize done ++ clean = pre
      have hc2 : c = '%' ∨ c = '+' := by simpa [isEscape] using hc
      rcases hc2 with rfl | rfl
      · simp only []
        rw [url_decode_switch_percent, decodeRest_percent]
        cases hst : stoi (rest2.take 2) with
        | error e => rfl
        | ok v =>
          have hi := ih (pre ++ [toChar v]) (rest2.drop 2)
            (by simp only [List.length_drop]; omega)
          simp only [List.append_assoc, List.singleton_append, List.length_append,
            List.length_singleton] at hi
          simp only [bind_ok, hi, prependOk_prependOk]
      · simp only []
        rw [url_decode_switch_plus, bind_ok, decodeRest_plus]
        have hi := ih (pre ++ [' ']) rest2 hlen
        simp only [List.append_assoc, List.singleton_append, List.length_append,
          List.length_singleton] at hi
        rw [hi, prependOk_prependOk]

/-- The function `url_decode` computes `decodeRest`: the fuel of its loop is
never used up. -/
theorem url_decode_eq (str : List Char) : url_decode str = decodeRest str := by
  have := url_decode_loop_eq (str.length + 1) [] str (Nat.lt_succ_self _)
  simpa [url_decode, prependOk_nil] using this

/-! ## Hexadecimal digits read by `stoi` -/

theorem char_le_iff (a b : Char) : a ≤ b ↔ a.toNat ≤ b.toNat := Iff.rfl

theorem hexVal_le (c : Char) : (hexVal c).getD 0 ≤ 15 := by
  unfold hexVal
  split
  · rename_i h
    rw [char_le_iff, char_le_iff] at h
    have h1 : ('9' : Char).toNat = 57 := rfl
    simp only [Option.getD_some]
    omega
  · split
    · rename_i h
      rw [char_le_iff, char_le_iff] at h
      have h1 : ('f' : Char).toNat = 102 := rfl
      simp only [Option.getD_some]
      omega
    · split
      · rename_i h
        rw [char_le_iff, char_le_iff] at h
        have h1 : ('F' : Char).toNat = 70 := rfl
        simp only [Option.getD_some]
        omega
      · simp

theorem isxdigit_ne (c d : Char) (h : isxdigit c = true) (hd : isxdigit d = false) : c ≠ d := by
  rintro rfl
  rw [h] at hd
  exact Bool.noConfusion hd

theorem isxdigit_not_space (c : Char) (h : isxdigit c = true) : isspace c = false := by
  have h1 := isxdigit_ne c ' ' h (by decide)
  have h2 := isxdigit_ne c '\t' h (by decide)
  have h3 := isxdigit_ne c '\n' h (by decide)
  have h4 := isxdigit_ne c '\x0b' h (by decide)
  have h5 := isxdigit_ne c '\x0c' h (by decide)
  have h6 := isxdigit_ne c '\r' h (by decide)
  simp [isspace, h1, h2, h3, h4, h5, h6]

/-- On two hexadecimal digits `stoi` reads the number they spell. -/
theorem stoi_two_hex (a b : Char) (ha : isxdigit a = true) (hb : isxdigit b = true) :
    stoi [a, b] = .ok ((16 * (hexVal a).getD 0 + (hexVal b).getD 0 : Nat) : Int) := by
  have hsp := isxdigit_not_space a ha
  have hm := isxdigit_ne a '-' ha (by decide)
  have hp := isxdigit_ne a '+' ha (by decide)
  have hx := isxdigit_ne b 'x' hb (by decide)
  have hX := isxdigit_ne b 'X' hb (by decide)
  have hva := hexVal_le a
  have hvb := hexVal_le b
  have hval : hexValue [a, b] = 16 * (hexVal a).getD 0 + (hexVal b).getD 0 := by
    simp [hexValue]
  have hnot : ¬ (((hexValue [a, b] : Nat) : Int) < - 2 ^ 31 ∨ 2 ^ 31 - 1 < ((hexValue [a, b] : Nat) : Int)) := by
    rw [hval]
    omega
  simp only [stoi, List.dropWhile, hsp, hm, hp, hx, hX, if_false, or_self, and_false,
    List.takeWhile, ha, hb]
  simp only [reduceCtorEq, if_false, Bool.false_eq_true]
  rw [if_neg hnot, hval]

theorem toChar_byte (n : Nat) (h : n < 256) : toChar (n : Int) = Char.ofNat n := by
  unfold toChar
  congr 1
  omega

theorem WellEncoded_cons_of_ne (c : Char) (rest : List Char) (h : c ≠ '%') :
    WellEncoded (c :: rest) = WellEncoded rest := by
  rcases rest with _ | ⟨a, _ | ⟨b, r⟩⟩ <;> simp [WellEncoded, h]

theorem refDecode_cons_of_ne (c : Char) (rest : List Char) (h : c ≠ '%') :
    refDecode (c :: rest) = (if c = '+' then ' ' else c) :: refDecode rest := by
  rcases rest with _ | ⟨a, _ | ⟨b, r⟩⟩ <;> by_cases hp : c = '+' <;> simp [refDecode, h, hp]

/-- On well-encoded input the scan of `url_decode` succeeds with the result of
the reference decoder. -/
theorem decodeRest_wellEncoded (n : Nat) (s : List Char) (hn : s.length ≤ n)
    (h : WellEncoded s = true) : decodeRest s = .ok (refDecode s) := by
  induction n generalizing s with
  | zero =>
    have : s = [] := List.length_eq_zero.mp (by omega)
    subst this
    rw [decodeRest_nil]
    rfl
  | succ n ih =>
    cases s with
    | nil =>
      rw [decodeRest_nil]
      rfl
    | cons c rest =>
      simp only [List.length_cons] at hn
      by_cases hpct : c = '%'
      · subst hpct
        cases rest with
        | nil => simp [WellEncoded] at h
        | cons a rest1 =>
          cases rest1 with
          | nil => simp [WellEncoded] at h
          | cons b rest2 =>
            simp only [WellEncoded, if_true, Bool.and_eq_true] at h
            obtain ⟨⟨ha, hb⟩, hrest⟩ := h
            simp only [List.length_cons] at hn
            have hva := hexVal_le a
            have hvb := hexVal_le b
            rw [decodeRest_percent]
            simp only [List.take, List.drop, stoi_two_hex a b ha hb]
            rw [ih rest2 (by omega) hrest, prependOk_ok,
              toChar_byte _ (by omega)]
            simp [refDecode]
      · by_cases hplus : c = '+'
        · subst hplus
          have hrest : WellEncoded rest = true := by
            rw [WellEncoded_cons_of_ne _ _ hpct] at h
            exact h
          rw [decodeRest_plus, ih rest (by omega) hrest, prependOk_ok,
            refDecode_cons_of_ne _ _ hpct]
          simp
        · have hrest : WellEncoded rest = true := by
            rw [WellEncoded_cons_of_ne _ _ hpct] at h
            exact h
          have hesc : isEscape c = false := by simp [isEscape, hpct, hplus]
          rw [decodeRest_other c rest hesc, ih rest (by omega) hrest, prependOk_ok,
            refDecode_cons_of_ne _ _ hpct]
          simp [hplus]

/-! ## Searching a string -/

theorem findAt_cons_match (pat : List Char) (c : Char) (cs : List Char) (i : Nat)
    (h : pat <+: c :: cs) : findAt pat (c :: cs) i = i := by
  simp [findAt, h]

theorem findAt_cons_skip (pat : List Char) (c : Char) (cs : List Char) (i : Nat)
    (h : ¬ pat <+: c :: cs) : findAt pat (c :: cs) i = findAt pat cs (i + 1) := by
  simp [findAt, h]

theorem dropLast_prefix_self (pat : List Char) : pat.dropLast <+: pat :=
  List.dropLast_prefix pat

theorem not_infix_dropLast (pat : List Char) (hpat : pat ≠ []) : ¬ pat <:+: pat.dropLast := by
  intro h
  have h1 := h.length_le
  have h2 : 0 < pat.length := List.length_pos.mpr hpat
  simp only [List.length_dropLast] at h1
  omega

/-- The pattern does not occur where it is not found. -/
theorem findAt_absent (pat s : List Char) (i : Nat) (h : ¬ pat <:+: s) :
    findAt pat s i = npos := by
  induction s generalizing i with
  | nil =>
    have hne : pat ≠ [] := by
      rintro rfl
      exact h (List.infix_refl _)
    simp [findAt, hne]
  | cons c cs ih =>
    rw [List.infix_cons_iff, not_or] at h
    rw [findAt_cons_skip _ _ _ _ h.1]
    exact ih (i + 1) h.2

/-- The search returns the place of the first occurrence: when the pattern
stands after `u` and does not occur earlier (not within `u` followed by all
but the last byte of the pattern), the result is the length of `u`. -/
theorem findAt_first (pat u v : List Char) (i : Nat) (hpat : pat ≠ [])
    (hfirst : ¬ pat <:+: u ++ pat.dropLast) :
    findAt pat (u ++ pat ++ v) i = i + u.length := by
  induction u generalizing i with
  | nil =>
    obtain ⟨p, ps, rfl⟩ := List.exists_cons_of_ne_nil hpat
    have hpre : (p :: ps) <+: p :: (ps ++ v) := ⟨v, by simp⟩
    simpa using findAt_cons_match (p :: ps) p (ps ++ v) i hpre
  | cons a u ih =>
    have hsplit : u ++ pat ++ v = (u ++ pat.dropLast) ++ (pat.drop (pat.length - 1) ++ v) := by
      have hp : pat.dropLast ++ pat.drop (pat.length - 1) = pat := by
        rw [List.dropLast_eq_take]
        exact List.take_append_drop _ _
      calc u ++ pat ++ v = u ++ (pat.dropLast ++ pat.drop (pat.length - 1)) ++ v := by rw [hp]
        _ = _ := by simp
    have hnot : ¬ pat <+: a :: (u ++ pat ++ v) := by
      intro hpre
      apply hfirst
      have hpre2 : (a :: u ++ pat.dropLast) <+: a :: (u ++ pat ++ v) := by
        rw [hsplit]
        exact ⟨pat.drop (pat.length - 1) ++ v, by simp⟩
      have hlen : pat.length ≤ (a :: u ++ pat.dropLast).length := by
        simp only [List.cons_append, List.length_cons, List.length_append, List.length_dropLast]
        have : 0 < pat.length := List.length_pos.mpr hpat
        omega
      exact (List.prefix_of_prefix_length_le hpre hpre2 hlen).isInfix
    have hrest : ¬ pat <:+: u ++ pat.dropLast := by
      intro hin
      apply hfirst
      rw [List.cons_append, List.infix_cons_iff]
      exact Or.inr hin
    have := ih (i + 1) hrest
    simp only [List.cons_append, List.length_cons]
    rw [findAt_cons_skip _ _ _ _ hnot, this]
    omega

theorem find_absent (s pat : List Char) (h : ¬ pat <:+: s) : find s pat = npos :=
  findAt_absent pat s 0 h

theorem find_first (pat u v : List Char) (hpat : pat ≠ [])
    (hfirst : ¬ pat <:+: u ++ pat.dropLast) : find (u ++ pat ++ v) pat = u.length := by
  simpa [find] using findAt_first pat u v 0 hpat hfirst

/-- What the search returns: `npos` when the pattern does not occur, else the
place of its first occurrence. -/
theorem find_cases (s pat : List Char) (hpat : pat ≠ []) :
    (¬ pat <:+: s ∧ find s pat = npos) ∨
    (∃ u v, s = u ++ pat ++ v ∧ ¬ pat <:+: u ++ pat.dropLast ∧ find s pat = u.length) := by
  suffices hs : ∀ i, (¬ pat <:+: s ∧ findAt pat s i = npos) ∨
      (∃ u v, s = u ++ pat ++ v ∧ ¬ pat <:+: u ++ pat.dropLast ∧ findAt pat s i = i + u.length) by
    simpa [find] using hs 0
  induction s with
  | nil =>
    intro i
    left
    have hn : ¬ pat <:+: [] := by
      simpa using hpat
    exact ⟨hn, findAt_absent pat [] i hn⟩
  | cons c cs ih =>
    intro i
    by_cases hpre : pat <+: c :: cs
    · right
      obtain ⟨v, hv⟩ := hpre
      refine ⟨[], v, by simp [hv], ?_, ?_⟩
      · simpa using not_infix_dropLast pat hpat
      · simpa using findAt_cons_match pat c cs i ⟨v, hv⟩
    · rcases ih (i + 1) with ⟨hn, hf⟩ | ⟨u, v, hs, hfirst, hf⟩
      · left
        refine ⟨?_, ?_⟩
        · rw [List.infix_cons_iff, not_or]
          exact ⟨hpre, hn⟩
        · rw [findAt_cons_skip _ _ _ _ hpre, hf]
      · right
        refine ⟨c :: u, v, by simp [hs], ?_, ?_⟩
        · rw [List.cons_append, List.infix_cons_iff, not_or]
          refine ⟨?_, hfirst⟩
          intro hp
          apply hpre
          have hsplit : u ++ pat ++ v = (u ++ pat.dropLast) ++ (pat.drop (pat.length - 1) ++ v) := by
            have hp : pat.dropLast ++ pat.drop (pat.length - 1) = pat := by
              rw [List.dropLast_eq_take]
              exact List.take_append_drop _ _
            calc u ++ pat ++ v = u ++ (pat.dropLast ++ pat.drop (pat.length - 1)) ++ v := by
                  rw [hp]
              _ = _ := by simp
          rw [hs, hsplit]
          exact hp.trans ⟨pat.drop (pat.length - 1) ++ v, by simp⟩
        · rw [findAt_cons_skip _ _ _ _ hpre, hf]
          simp only [List.length_cons]
          omega

/-! ## Conversions between `size_t` and `int` -/

theorem toInt_of_lt (n : Nat) (h : n < 2 ^ 31) : toInt n = (n : Int) := by
  unfold toInt
  have h1 : n % 2 ^ 32 = n := Nat.mod_eq_of_lt (by omega)
  rw [h1, if_pos h]

theorem toInt_npos : toInt npos = -1 := by decide

theorem toSizeT_of_nonneg (n : Nat) (h : n < 2 ^ 64) : toSizeT (n : Int) = n := by
  unfold toSizeT
  have h1 : ((n : Int) % 2 ^ 64) = (n : Int) := Int.emod_eq_of_lt (by omega) (by omega)
  rw [h1]
  simp

theorem toSizeT_of_neg (i : Int) (h : i < 0) (hlow : - 2 ^ 31 ≤ i) : 2 ^ 63 ≤ toSizeT i := by
  unfold toSizeT
  have h1 : i % 2 ^ 64 = i + 2 ^ 64 := by
    rw [← Int.add_emod_self]
    exact Int.emod_eq_of_lt (by omega) (by omega)
  rw [h1]
  omega

theorem substr_of_le (s : List Char) (pos n : Nat) (h : pos ≤ s.length) :
    substr s pos n = .ok ((s.drop pos).take n) := by
  simp [substr, Nat.not_lt.mpr h]

theorem substr_of_gt (s : List Char) (pos n : Nat) (h : s.length < pos) :
    substr s pos n = .error .out_of_range := by
  simp [substr, h]

theorem singleton_infix_iff (a : Char) (l : List Char) : [a] <:+: l ↔ a ∈ l := by
  constructor
  · rintro ⟨u, v, rfl⟩
    simp
  · intro h
    obtain ⟨u, v, rfl⟩ := List.mem_iff_append.mp h
    exact ⟨u, v, by simp⟩

/-! ## The quoted tokenizer -/

theorem readQuotedBody_plain (c : Char) (rest acc : List Char) (hq : c ≠ '"') (hb : c ≠ '\\') :
    readQuotedBody (c :: rest) acc = readQuotedBody rest (acc ++ [c]) := by
  rcases rest with _ | ⟨d, rest⟩ <;> simp [readQuotedBody, hq, hb]

theorem readQuotedBody_close (rest acc : List Char) :
    readQuotedBody ('"' :: rest) acc = some (acc, rest) := by
  rcases rest with _ | ⟨d, rest⟩ <;> simp [readQuotedBody]

/-- A run of bytes without quote and backslash, then the closing quote: the
token is the run, and the stream stands after the quote. -/
theorem readQuotedBody_run (s rest acc : List Char) (hq : '"' ∉ s) (hb : '\\' ∉ s) :
    readQuotedBody (s ++ '"' :: rest) acc = some (acc ++ s, rest) := by
  induction s generalizing acc with
  | nil => simpa using readQuotedBody_close rest acc
  | cons c s ih =>
    have hcq : c ≠ '"' := fun h => hq (h ▸ List.mem_cons_self _ _)
    have hcb : c ≠ '\\' := fun h => hb (h ▸ List.mem_cons_self _ _)
    rw [List.cons_append, readQuotedBody_plain c _ acc hcq hcb,
      ih (acc ++ [c]) (fun h => hq (List.mem_cons_of_mem _ h))
        (fun h => hb (List.mem_cons_of_mem _ h))]
    simp

theorem readQuoted_nil : readQuoted [] = none := rfl

theorem tokenizeLoop_step (fuel : Nat) (is : List Char) :
    tokenizeLoop (fuel + 1) is
      = match readQuoted is with
        | none => []
        | some (each, rest) => each :: tokenizeLoop fuel rest := rfl

theorem readQuoted_quote (rest : List Char) :
    readQuoted ('"' :: rest) = readQuotedBody rest [] := by
  simp [readQuoted, List.dropWhile, show isspace '"' = false by decide]

/-! ## The not-found path -/

/-- When the `substr` call of `errorCase` is in range, `errorCase` writes the
length of the message in hexadecimal, CRLF, the message, a newline, CRLF and
the zero chunk. -/
theorem errorCase_of_substr (line os fileName : List Char)
    (h : substr line (toSizeT (toInt (find line "GET ".toList) + 5))
          (toSizeT (toInt (find line "HTTP/1.1".toList) - toInt (find line "GET ".toList) - 5))
        = .ok fileName) :
    errorCase line os
      = ⟨os ++ toHex ("Invalid request: ".toList ++ fileName).length ++ "\r\n".toList
          ++ "Invalid request: ".toList ++ fileName ++ "\n".toList ++ "\r\n".toList
          ++ "0\r\n\r\n".toList, none⟩ := by
  simp only [errorCase, h]

theorem errorCase_of_gt (line os : List Char)
    (h : line.length < toSizeT (toInt (find line "GET ".toList) + 5)) :
    errorCase line os = ⟨os, some .out_of_range⟩ := by
  simp only [errorCase, substr_of_gt _ _ _ h]

/-- An occurrence of the pattern never starts before the first one. -/
theorem first_occurrence_le (pat u0 v0 u v : List Char) (hpat : pat ≠ [])
    (hfirst : ¬ pat <:+: u0 ++ pat.dropLast) (h : u0 ++ pat ++ v0 = u ++ pat ++ v) :
    u0.length ≤ u.length := by
  by_contra hlt
  apply hfirst
  have hp : pat.dropLast ++ pat.drop (pat.length - 1) = pat := by
    rw [List.dropLast_eq_take]
    exact List.take_append_drop _ _
  have h1 : (u ++ pat) <+: u0 ++ pat ++ v0 := ⟨v, by rw [h]⟩
  have h2 : (u0 ++ pat.dropLast) <+: u0 ++ pat ++ v0 := by
    refine ⟨pat.drop (pat.length - 1) ++ v0, ?_⟩
    calc u0 ++ pat.dropLast ++ (pat.drop (pat.length - 1) ++ v0)
        = u0 ++ (pat.dropLast ++ pat.drop (pat.length - 1)) ++ v0 := by simp
      _ = u0 ++ pat ++ v0 := by rw [hp]
  have hlen : (u ++ pat).length ≤ (u0 ++ pat.dropLast).length := by
    have : 0 < pat.length := List.length_pos.mpr hpat
    simp only [List.length_append, List.length_dropLast]
    omega
  obtain ⟨t, ht⟩ := List.prefix_of_prefix_length_le h1 h2 hlen
  exact ⟨u, t, ht⟩

/-- The start position of the `substr` call of `errorCase`: five bytes after
the first `GET `, or byte 4 when there is no `GET `. -/
theorem errorCase_start (line : List Char) (hlen : line.length < 2 ^ 31) :
    (¬ "GET ".toList <:+: line ∧ toSizeT (toInt (find line "GET ".toList) + 5) = 4) ∨
    (∃ u v, line = u ++ "GET ".toList ++ v ∧ ¬ "GET ".toList <:+: u ++ "GET".toList
      ∧ toSizeT (toInt (find line "GET ".toList) + 5) = u.length + 5) := by
  rcases find_cases line "GET ".toList (by decide) with ⟨hn, hf⟩ | ⟨u, v, hs, hfirst, hf⟩
  · left
    refine ⟨hn, ?_⟩
    rw [hf, toInt_npos]
    decide
  · right
    refine ⟨u, v, hs, hfirst, ?_⟩
    have hl : line.length = u.length + 4 + v.length := by
      rw [hs]
      simp only [List.length_append]
      rfl
    rw [hf, toInt_of_lt _ (by omega)]
    exact_mod_cast toSizeT_of_nonneg (u.length + 5) (by omega)

/-! ## Dispatch -/

theorem printRegular_eq (os : List Char) :
    printRegular os
      = os ++ "Content-Type: text/plain\r\nTransfer-Encoding: chunked\r\nConnection: Close\r\n\r\n".toList := by
  simp only [printRegular, List.append_assoc]
  rfl

theorem substr_zero (line : List Char) (n : Nat) : substr line 0 n = .ok (line.take n) := by
  simp [substr]

theorem stringProcessing_not_found (child : List (List Char) → List Char × Int)
    (line os : List Char) (h : line.take 17 ≠ "GET /cgi-bin/exec".toList) :
    stringProcessing child line os
      = errorCase line (printRegular (os ++ "HTTP/1.1 404 Not Found\r\n".toList)) := by
  simp only [stringProcessing, substr_zero, if_neg h]

theorem stringProcessing_exec (child : List (List Char) → List Char × Int)
    (line os : List Char) (h : line.take 17 = "GET /cgi-bin/exec".toList) :
    stringProcessing child line os
      = match extractData line with
        | .error e => ⟨printRegular (os ++ "HTTP/1.1 200 OK\r\n".toList), some e⟩
        | .ok result =>
          ⟨OutputChildProcess child result (printRegular (os ++ "HTTP/1.1 200 OK\r\n".toList)),
            none⟩ := by
  simp only [stringProcessing, substr_zero, if_pos h]

theorem errorCase_of_error (line os : List Char) (e : Failure)
    (h : substr line (toSizeT (toInt (find line "GET ".toList) + 5))
          (toSizeT (toInt (find line "HTTP/1.1".toList) - toInt (find line "GET ".toList) - 5))
        = .error e) :
    errorCase line os = ⟨os, some e⟩ := by
  simp only [errorCase, h]

theorem frames_head (cs : List (List Char)) (tail : List Char) (hcs : cs ≠ [])
    (hne : ∀ c ∈ cs, c ≠ []) :
    ∃ n rest, 0 < n ∧ frames cs ++ tail = toHex n ++ "\r\n".toList ++ rest := by
  obtain ⟨c, cs2, rfl⟩ := List.exists_cons_of_ne_nil hcs
  have hc : c ≠ [] := hne c (List.mem_cons_self _ _)
  refine ⟨c.length, c ++ "\r\n".toList ++ frames cs2 ++ tail, List.length_pos.mpr hc, ?_⟩
  simp only [frames, frame, List.append_assoc]

theorem not_prefix_200_404 (rest : List Char) :
    ¬ "HTTP/1.1 200 OK\r\n".toList <+: "HTTP/1.1 404 Not Found\r\n".toList ++ rest := by
  intro h
  have h1 := List.prefix_iff_eq_take.mp h
  rw [List.take_append_of_le_length (by decide)] at h1
  revert h1
  decide

/-! ## Occurrences across a boundary -/

/-- An occurrence of `pat` in `w ++ f` lies in `f` when `w` is no longer than
`pat` and no non-empty end of `w` begins `pat`. -/
theorem infix_of_infix_append_left (pat w f : List Char) (hlen : w.length ≤ pat.length)
    (hw : ∀ t ∈ w.tails, t ≠ [] → ¬ t <+: pat) (h : pat <:+: w ++ f) : pat <:+: f := by
  induction w with
  | nil => simpa using h
  | cons a w ih =>
    rw [List.cons_append, List.infix_cons_iff] at h
    rcases h with hp | hi
    · exfalso
      have h2 : (a :: w) <+: a :: (w ++ f) := ⟨f, rfl⟩
      have h3 := List.prefix_of_prefix_length_le h2 hp hlen
      exact hw (a :: w) ((List.mem_tails _ _).mpr (List.suffix_refl _)) (by simp) h3
    · apply ih
      · simp only [List.length_cons] at hlen
        omega
      · intro t ht hne
        apply hw t _ hne
        rw [List.mem_tails] at ht ⊢
        exact ht.trans (List.suffix_cons a w)
      · exact hi

/-- An occurrence of `pat` in `f ++ w` lies in `f` when `w` is no longer than
`pat` and no non-empty beginning of `w` ends `pat`. -/
theorem infix_of_infix_append_right (pat f w : List Char) (hlen : w.length ≤ pat.length)
    (hw : ∀ t ∈ w.inits, t ≠ [] → ¬ t <:+ pat) (h : pat <:+: f ++ w) : pat <:+: f := by
  induction w using List.reverseRecOn with
  | nil => simpa using h
  | append_singleton w a ih =>
    rw [← List.append_assoc, List.infix_concat_iff] at h
    rcases h with hs | hi
    · exfalso
      have h2 : (w ++ [a]) <:+ f ++ w ++ [a] := ⟨f, by simp⟩
      have h3 := List.suffix_of_suffix_length_le h2 hs hlen
      exact hw (w ++ [a]) ((List.mem_inits _ _).mpr (List.prefix_refl _)) (by simp) h3
    · apply ih
      · simp only [List.length_append, List.length_singleton] at hlen
        omega
      · intro t ht hne
        apply hw t _ hne
        rw [List.mem_inits] at ht ⊢
        exact ht.trans (List.prefix_append w [a])
      · exact hi

/-- In `GET ` `f` `HTTP/1.1` the first `HTTP/1.1` is the one after `f` when
`f` holds none. -/
theorem find_http_after (f : List Char) (h : ¬ "HTTP/1.1".toList <:+: f) :
    find ("GET ".toList ++ f ++ "HTTP/1.1".toList) "HTTP/1.1".toList = 4 + f.length := by
  have hfirst : ¬ "HTTP/1.1".toList <:+: ("GET ".toList ++ f) ++ "HTTP/1.1".toList.dropLast := by
    intro hin
    rw [List.append_assoc] at hin
    have h1 := infix_of_infix_append_left "HTTP/1.1".toList "GET ".toList _ (by decide)
      (by decide) hin
    exact h (infix_of_infix_append_right "HTTP/1.1".toList f _ (by decide) (by decide) h1)
  have := find_first "HTTP/1.1".toList ("GET ".toList ++ f) [] (by decide) hfirst
  rw [List.append_nil] at this
  rw [this, List.length_append]
  rfl

theorem find_get_front (rest : List Char) :
    find ("GET ".toList ++ rest) "GET ".toList = 0 := by
  have := find_first "GET ".toList [] rest (by decide) (by decide)
  simpa using this

/-- The body that `errorCase` writes is never accepted by the strict decoder:
after the bytes counted by the length field comes the newline of `endl`, not
the CRLF that ends a chunk. -/
theorem errorCase_body_rejected (fileName : List Char) :
    chunkedDecode (toHex ("Invalid request: ".toList ++ fileName).length ++ "\r\n".toList
      ++ "Invalid request: ".toList ++ fileName ++ "\n".toList ++ "\r\n".toList
      ++ "0\r\n\r\n".toList) = none := by
  have hshape : toHex ("Invalid request: ".toList ++ fileName).length ++ "\r\n".toList
      ++ "Invalid request: ".toList ++ fileName ++ "\n".toList ++ "\r\n".toList
      ++ "0\r\n\r\n".toList
      = toHex ("Invalid request: ".toList ++ fileName).length
        ++ '\r' :: ('\n' :: (("Invalid request: ".toList ++ fileName)
            ++ '\n' :: "\r\n0\r\n\r\n".toList)) := by
    simp only [List.append_assoc, crlf_toList, List.cons_append, List.nil_append]
    rfl
  have hlen : ("Invalid request: ".toList ++ fileName).length ≠ 0 := by
    rw [List.length_append]
    have : "Invalid request: ".toList.length = 17 := rfl
    omega
  rw [hshape]
  generalize "Invalid request: ".toList ++ fileName = msg at hlen ⊢
  unfold chunkedDecode
  simp only [chunkedDecodeLoop, takeWhile_toHex, dropWhile_toHex, lowerHexValue_toHex]
  rw [if_neg (toHex_ne_nil _)]
  simp only [stripCRLF, and_self, if_true]
  rw [if_neg hlen]
  have hnot : ¬ (msg ++ '\n' :: "\r\n0\r\n\r\n".toList).length < msg.length := by
    simp
  rw [if_neg hnot]
  simp [stripCRLF]

/-! ## The tokenizer loop: the fuel is never used up -/

theorem readWord_length (is word rest : List Char) (h : readWord is = some (word, rest)) :
    rest.length < is.length := by
  unfold readWord at h
  simp only at h
  split at h
  · exact absurd h (by simp)
  · rename_i hw
    simp only [Option.some.injEq, Prod.mk.injEq] at h
    obtain ⟨hword, hrest⟩ := h
    have h1 := (List.dropWhile_suffix isspace (l := is)).length_le
    have h2 := congrArg List.length
      (List.takeWhile_append_dropWhile (fun c => !isspace c) (List.dropWhile isspace is))
    have h3 : 0 < (List.takeWhile (fun c => !isspace c) (List.dropWhile isspace is)).length :=
      List.length_pos.mpr hw
    rw [List.length_append, hrest] at h2
    omega

theorem readQuotedBody_length (n : Nat) (is acc token rest : List Char) (hn : is.length ≤ n)
    (h : readQuotedBody is acc = some (token, rest)) : rest.length < is.length := by
  induction n generalizing is acc with
  | zero =>
    have : is = [] := List.length_eq_zero.mp (by omega)
    subst this
    simp [readQuotedBody] at h
  | succ n ih =>
    cases is with
    | nil => simp [readQuotedBody] at h
    | cons c is2 =>
      simp only [List.length_cons] at hn ⊢
      by_cases hb : c = '\\'
      · subst hb
        cases is2 with
        | nil => simp [readQuotedBody] at h
        | cons d is3 =>
          simp only [readQuotedBody, if_true] at h
          have := ih is3 _ (by simp only [List.length_cons] at hn; omega) h
          simp only [List.length_cons]
          omega
      · by_cases hq : c = '"'
        · subst hq
          rw [readQuotedBody_close] at h
          simp only [Option.some.injEq, Prod.mk.injEq] at h
          rw [← h.2]
          omega
        · rw [readQuotedBody_plain c is2 acc hq hb] at h
          have := ih is2 _ (by omega) h
          omega

theorem readQuoted_length (is token rest : List Char) (h : readQuoted is = some (token, rest)) :
    rest.length < is.length := by
  unfold readQuoted at h
  have h1 := (List.dropWhile_suffix isspace (l := is)).length_le
  split at h
  · exact absurd h (by simp)
  · rename_i c rest2 heq
    rw [heq] at h1
    simp only [List.length_cons] at h1
    split at h
    · have := readQuotedBody_length rest2.length rest2 [] token rest (le_refl _) h
      omega
    · have := readWord_length (c :: rest2) token rest h
      simp only [List.length_cons] at this
      omega

theorem tokenizeLoop_fuel (fuel1 fuel2 : Nat) (is : List Char)
    (h1 : is.length < fuel1) (h2 : is.length < fuel2) :
    tokenizeLoop fuel1 is = tokenizeLoop fuel2 is := by
  induction fuel1 generalizing fuel2 is with
  | zero => omega
  | succ fuel1 ih =>
    obtain ⟨k, rfl⟩ : ∃ k, fuel2 = k + 1 := ⟨fuel2 - 1, by omega⟩
    rw [tokenizeLoop_step, tokenizeLoop_step]
    cases hr : readQuoted is with
    | none => rfl
    | some p =>
      obtain ⟨token, rest⟩ := p
      have := readQuoted_length is token rest hr
      simp only
      rw [ih k rest (by omega) (by omega)]

/-- Unfolding of `tokenize`: the first token, then the tokens of the rest. -/
theorem tokenize_step (is token rest : List Char) (h : readQuoted is = some (token, rest)) :
    tokenize is = token :: tokenize rest := by
  have hlen := readQuoted_length is token rest h
  have e : tokenize is = tokenizeLoop (is.length + 1) is := rfl
  rw [e, tokenizeLoop_step, h]
  simp only
  rw [tokenizeLoop_fuel is.length (rest.length + 1) rest hlen (Nat.lt_succ_self _)]
  rfl

theorem tokenize_stop (is : List Char) (h : readQuoted is = none) : tokenize is = [] := by
  have e : tokenize is = tokenizeLoop (is.length + 1) is := rfl
  rw [e, tokenizeLoop_step, h]

/-! ## Lengths of the chunks -/

theorem to_string_ne_nil (n : Int) : to_string n ≠ [] := by
  unfold to_string
  split
  · simp
  · exact digitsCore_ne_nil 10 _ _

theorem exit_message_length (n : Int) : 12 ≤ ("Exit code: ".toList ++ to_string n).length := by
  have h1 : 0 < (to_string n).length := List.length_pos.mpr (to_string_ne_nil n)
  have h2 : "Exit code: ".toList.length = 11 := rfl
  rw [List.length_append, h2]
  omega

theorem error_message_length (fileName : List Char) :
    17 ≤ ("Invalid request: ".toList ++ fileName).length := by
  have h2 : "Invalid request: ".toList.length = 17 := rfl
  rw [List.length_append, h2]
  omega

/-! ## The steps of `extractData` -/

/-- The function `extractData`, step by step: the two `substr` calls, each
followed by its `url_decode`. -/
theorem extractData_eq (line : List Char) :
    extractData line
      = match substr line (toSizeT (toInt (find line "=".toList) + 1))
            (toSizeT (toInt (find line "&".toList) - toInt (find line "=".toList) - 1)) with
        | .error e => .error e
        | .ok cmd =>
          match url_decode cmd with
          | .error e => .error e
          | .ok decCmd =>
            match substr line (toSizeT (toInt (find line "args=".toList) + 5))
                (toSizeT (toInt (find line "HTTP".toList)
                  - toInt (find line "args=".toList) - 5)) with
            | .error e => .error e
            | .ok argm =>
              match url_decode argm with
              | .error e => .error e
              | .ok decArgm => .ok (decCmd :: tokenize decArgm) := by
  simp only [extractData]
  cases substr line (toSizeT (toInt (find line "=".toList) + 1))
      (toSizeT (toInt (find line "&".toList) - toInt (find line "=".toList) - 1)) with
  | error e => rfl
  | ok cmd =>
    simp only [bind_ok]
    cases url_decode cmd with
    | error e => rfl
    | ok decCmd =>
      simp only [bind_ok]
      cases substr line (toSizeT (toInt (find line "args=".toList) + 5))
          (toSizeT (toInt (find line "HTTP".toList) - toInt (find line "args=".toList) - 5)) with
      | error e => rfl
      | ok argm =>
        simp only [bind_ok]
        cases url_decode argm with
        | error e => rfl
        | ok decArgm => rfl

/-! ## What `stoi` makes of the bytes after a `%` -/

theorem stoi_nil : stoi [] = .error .invalid_argument := by decide

theorem isspace_cases (a : Char) (h : isspace a = true) :
    a = ' ' ∨ a = '\t' ∨ a = '\n' ∨ a = '\x0b' ∨ a = '\x0c' ∨ a = '\r' := by
  have h2 : ((((a = ' ' ∨ a = '\t') ∨ a = '\n') ∨ a = '\x0b') ∨ a = '\x0c') ∨ a = '\r' := by
    simpa [isspace] using h
  tauto

theorem hexValue_one (a : Char) : hexValue [a] = (hexVal a).getD 0 := by
  simp [hexValue]

theorem hexValue_two (a b : Char) :
    hexValue [a, b] = 16 * (hexVal a).getD 0 + (hexVal b).getD 0 := by
  simp [hexValue]

theorem stoi_one (a : Char) :
    stoi [a] = if isxdigit a = true then .ok (((hexVal a).getD 0 : Nat) : Int)
      else .error .invalid_argument := by
  have hv := hexVal_le a
  by_cases hx : isxdigit a = true
  · have hsp := isxdigit_not_space a hx
    have hm := isxdigit_ne a '-' hx (by decide)
    have hp := isxdigit_ne a '+' hx (by decide)
    have hnot : ¬ (((hexValue [a] : Nat) : Int) < - 2 ^ 31 ∨ 2 ^ 31 - 1 < ((hexValue [a] : Nat) : Int)) := by
      rw [hexValue_one]
      omega
    simp only [stoi, List.dropWhile, hsp, hm, hp, if_false, List.takeWhile, hx]
    simp only [reduceCtorEq, if_false, Bool.false_eq_true]
    rw [if_neg hnot, hexValue_one, if_pos trivial]
  · by_cases hs : isspace a = true
    · rcases isspace_cases a hs with rfl | rfl | rfl | rfl | rfl | rfl <;> decide
    · by_cases hm : a = '-'
      · subst hm
        decide
      · by_cases hp : a = '+'
        · subst hp
          decide
        · simp only [Bool.not_eq_true] at hs hx
          simp [stoi, List.dropWhile, List.takeWhile, hs, hm, hp, hx]

theorem stoi_two_digit (a b : Char) (ha : isxdigit a = true) : ∃ v, stoi [a, b] = .ok v := by
  by_cases hb : isxdigit b = true
  · exact ⟨_, stoi_two_hex a b ha hb⟩
  · have hsp := isxdigit_not_space a ha
    have hm := isxdigit_ne a '-' ha (by decide)
    have hp := isxdigit_ne a '+' ha (by decide)
    have hv := hexVal_le a
    by_cases hx : b = 'x'
    · subst hx
      by_cases h0 : a = '0'
      · subst h0
        exact ⟨0, by decide⟩
      · have hnot : ¬ (((hexValue [a] : Nat) : Int) < - 2 ^ 31
            ∨ 2 ^ 31 - 1 < ((hexValue [a] : Nat) : Int)) := by
          rw [hexValue_one]
          omega
        refine ⟨((hexValue [a] : Nat) : Int), ?_⟩
        simp only [stoi, List.dropWhile, hsp, hm, hp, h0, if_false, false_and, List.takeWhile, ha,
          show isxdigit 'x' = false by decide]
        simp only [reduceCtorEq, if_false, Bool.false_eq_true]
        rw [if_neg hnot]
    · by_cases hX : b = 'X'
      · subst hX
        by_cases h0 : a = '0'
        · subst h0
          exact ⟨0, by decide⟩
        · have hnot : ¬ (((hexValue [a] : Nat) : Int) < - 2 ^ 31
              ∨ 2 ^ 31 - 1 < ((hexValue [a] : Nat) : Int)) := by
            rw [hexValue_one]
            omega
          refine ⟨((hexValue [a] : Nat) : Int), ?_⟩
          simp only [stoi, List.dropWhile, hsp, hm, hp, h0, if_false, false_and, List.takeWhile,
            ha, show isxdigit 'X' = false by decide]
          simp only [reduceCtorEq, if_false, Bool.false_eq_true]
          rw [if_neg hnot]
      · have hnot : ¬ (((hexValue [a] : Nat) : Int) < - 2 ^ 31
            ∨ 2 ^ 31 - 1 < ((hexValue [a] : Nat) : Int)) := by
          rw [hexValue_one]
          omega
        simp only [Bool.not_eq_true] at hb
        refine ⟨((hexValue [a] : Nat) : Int), ?_⟩
        simp only [stoi, List.dropWhile, hsp, hm, hp, hx, hX, if_false, or_self, and_false,
          List.takeWhile, ha, hb]
        simp only [reduceCtorEq, if_false, Bool.false_eq_true]
        rw [if_neg hnot]

theorem stoi_space_digit (a b : Char) (ha : isspace a = true) (hb : isxdigit b = true) :
    stoi [a, b] = .ok ((hexValue [b] : Nat) : Int) := by
  have hsp := isxdigit_not_space b hb
  have hm := isxdigit_ne b '-' hb (by decide)
  have hp := isxdigit_ne b '+' hb (by decide)
  have hv := hexVal_le b
  have hnot : ¬ (((hexValue [b] : Nat) : Int) < - 2 ^ 31
      ∨ 2 ^ 31 - 1 < ((hexValue [b] : Nat) : Int)) := by
    rw [hexValue_one]
    omega
  simp only [stoi, List.dropWhile, ha, hsp, hm, hp, if_false, List.takeWhile, hb]
  simp only [reduceCtorEq, if_false, Bool.false_eq_true]
  rw [if_neg hnot]

theorem stoi_minus_digit (b : Char) (hb : isxdigit b = true) :
    stoi ['-', b] = .ok (- ((hexValue [b] : Nat) : Int)) := by
  have hv := hexVal_le b
  have hnot : ¬ (- ((hexValue [b] : Nat) : Int) < - 2 ^ 31
      ∨ 2 ^ 31 - 1 < - ((hexValue [b] : Nat) : Int)) := by
    rw [hexValue_one]
    omega
  simp only [stoi, List.dropWhile, show isspace '-' = false by decide, if_true, List.takeWhile,
    hb]
  simp only [reduceCtorEq, if_false, if_true]
  rw [if_neg hnot]

theorem stoi_plus_digit (b : Char) (hb : isxdigit b = true) :
    stoi ['+', b] = .ok ((hexValue [b] : Nat) : Int) := by
  have hv := hexVal_le b
  have hnot : ¬ (((hexValue [b] : Nat) : Int) < - 2 ^ 31
      ∨ 2 ^ 31 - 1 < ((hexValue [b] : Nat) : Int)) := by
    rw [hexValue_one]
    omega
  simp only [stoi, List.dropWhile, show isspace '+' = false by decide,
    show ('+' : Char) ≠ '-' by decide, if_false, if_true, List.takeWhile, hb]
  simp only [reduceCtorEq, if_false, Bool.false_eq_true]
  rw [if_neg hnot]

theorem stoi_no_digit (b : Char) (hb : isxdigit b = false) :
    stoi [b] = .error .invalid_argument := by
  rw [stoi_one, hb]
  rfl

theorem stoi_space_no_digit (a b : Char) (ha : isspace a = true) (hb : isxdigit b = false) :
    stoi [a, b] = .error .invalid_argument := by
  by_cases hs : isspace b = true
  · simp [stoi, List.dropWhile, ha, hs]
  · simp only [Bool.not_eq_true] at hs
    have h1 := stoi_no_digit b hb
    have e : stoi [a, b] = stoi [b] := by
      simp only [stoi, List.dropWhile, ha, hs]
    rw [e, h1]

theorem stoi_sign_no_digit (a b : Char) (ha : a = '-' ∨ a = '+') (hb : isxdigit b = false) :
    stoi [a, b] = .error .invalid_argument := by
  rcases ha with rfl | rfl
  · simp [stoi, List.dropWhile, show isspace '-' = false by decide, List.takeWhile, hb]
  · simp [stoi, List.dropWhile, show isspace '+' = false by decide, List.takeWhile, hb]

theorem stoi_other (a b : Char) (ha : isxdigit a = false) (hs : isspace a = false)
    (hm : a ≠ '-') (hp : a ≠ '+') : stoi [a, b] = .error .invalid_argument := by
  have h0 : a ≠ '0' := by
    rintro rfl
    exact absurd ha (by decide)
  simp [stoi, List.dropWhile, List.takeWhile, ha, hs, hm, hp, h0]

/-- The bytes after a `%`, at most two: `stoi` raises `invalid_argument` when
they spell no number, and returns a number otherwise. -/
theorem stoi_short (hex : List Char) (hlen : hex.length ≤ 2) :
    (noNumber hex = true ∧ stoi hex = .error .invalid_argument) ∨
    (noNumber hex = false ∧ ∃ v, stoi hex = .ok v) := by
  rcases hex with _ | ⟨a, _ | ⟨b, _ | ⟨c, rest⟩⟩⟩
  · left
    exact ⟨rfl, stoi_nil⟩
  · by_cases ha : isxdigit a = true
    · right
      refine ⟨by simp [noNumber, ha], (((hexVal a).getD 0 : Nat) : Int), ?_⟩
      rw [stoi_one, if_pos ha]
    · left
      simp only [Bool.not_eq_true] at ha
      exact ⟨by simp [noNumber, ha], stoi_no_digit a ha⟩
  · by_cases ha : isxdigit a = true
    · right
      exact ⟨by simp [noNumber, ha], stoi_two_digit a b ha⟩
    · simp only [Bool.not_eq_true] at ha
      by_cases hb : isxdigit b = true
      · by_cases hs : isspace a = true
        · right
          exact ⟨by simp [noNumber, ha, hs, hb], _, stoi_space_digit a b hs hb⟩
        · simp only [Bool.not_eq_true] at hs
          by_cases hm : a = '-'
          · subst hm
            right
            exact ⟨by simp [noNumber, ha, hb], _, stoi_minus_digit b hb⟩
          · by_cases hp : a = '+'
            · subst hp
              right
              exact ⟨by simp [noNumber, ha, hb], _, stoi_plus_digit b hb⟩
            · left
              exact ⟨by simp [noNumber, ha, hs, hm, hp], stoi_other a b ha hs hm hp⟩
      · simp only [Bool.not_eq_true] at hb
        left
        refine ⟨by simp [noNumber, ha, hb], ?_⟩
        by_cases hs : isspace a = true
        · exact stoi_space_no_digit a b hs hb
        · simp only [Bool.not_eq_true] at hs
          by_cases hm : a = '-'
          · exact stoi_sign_no_digit a b (Or.inl hm) hb
          · by_cases hp : a = '+'
            · exact stoi_sign_no_digit a b (Or.inr hp) hb
            · exact stoi_other a b ha hs hm hp
  · simp only [List.length_cons] at hlen
    omega

theorem BadEscape_cons_of_ne (c : Char) (rest : List Char) (h : c ≠ '%') :
    BadEscape (c :: rest) = BadEscape rest := by
  rcases rest with _ | ⟨a, _ | ⟨b, r⟩⟩ <;> simp [BadEscape, h]

theorem BadEscape_percent (rest : List Char) :
    BadEscape ('%' :: rest) = (noNumber (rest.take 2) || BadEscape (rest.drop 2)) := by
  rcases rest with _ | ⟨a, _ | ⟨b, r⟩⟩ <;> simp [BadEscape, noNumber]

/-- The scan of `url_decode` either meets a `%` without a number after it and
raises `invalid_argument`, or returns a string. -/
theorem decodeRest_cases (n : Nat) (s : List Char) (hn : s.length ≤ n) :
    (BadEscape s = true ∧ decodeRest s = .error .invalid_argument) ∨
    (BadEscape s = false ∧ ∃ r, decodeRest s = .ok r) := by
  induction n generalizing s with
  | zero =>
    have : s = [] := List.length_eq_zero.mp (by omega)
    subst this
    right
    exact ⟨rfl, [], decodeRest_nil⟩
  | succ n ih =>
    cases s with
    | nil =>
      right
      exact ⟨rfl, [], decodeRest_nil⟩
    | cons c rest =>
      simp only [List.length_cons] at hn
      by_cases hpct : c = '%'
      · subst hpct
        rw [BadEscape_percent, decodeRest_percent]
        rcases stoi_short (rest.take 2) (by simp) with ⟨hbad, hst⟩ | ⟨hgood, v, hst⟩
        · left
          rw [hbad, hst]
          exact ⟨rfl, rfl⟩
        · rw [hgood, hst]
          rcases ih (rest.drop 2) (by simp only [List.length_drop]; omega) with
            ⟨hb, hd⟩ | ⟨hb, r, hd⟩
          · left
            rw [hb, hd]
            exact ⟨rfl, rfl⟩
          · right
            rw [hb, hd]
            exact ⟨rfl, _, rfl⟩
      · rw [BadEscape_cons_of_ne c rest hpct]
        have hdec : decodeRest (c :: rest)
            = prependOk [if c = '+' then ' ' else c] (decodeRest rest) := by
          by_cases hplus : c = '+'
          · subst hplus
            rw [decodeRest_plus]
            rfl
          · rw [decodeRest_other c rest (by simp [isEscape, hpct, hplus]), if_neg hplus]
        rw [hdec]
        rcases ih rest (by omega) with ⟨hb, hd⟩ | ⟨hb, r, hd⟩
        · left
          rw [hd]
          exact ⟨hb, rfl⟩
        · right
          rw [hd]
          exact ⟨hb, _, rfl⟩

/-- The only exception of `url_decode` is `invalid_argument`, and it is raised
exactly when the scan meets a `%` without a number after it. -/
theorem url_decode_cases (s : List Char) :
    (BadEscape s = true ∧ url_decode s = .error .invalid_argument) ∨
    (BadEscape s = false ∧ ∃ r, url_decode s = .ok r) := by
  rw [url_decode_eq]
  exact decodeRest_cases s.length s (le_refl _)

theorem url_decode_error (s : List Char) (e : Failure) (h : url_decode s = .error e) :
    e = .invalid_argument := by
  rcases url_decode_cases s with ⟨-, hd⟩ | ⟨-, r, hd⟩
  · rw [hd] at h
    injection h with h
    exact h.symm
  · rw [hd] at h
    exact absurd h (by simp)

/-! ## Start positions of the `substr` calls -/

/-- The start position `pos + k` of a `substr` call, with `pos` the `int`
result of a search for `pat` and `k` at most the length of `pat`, lies within
the line as soon as the line has `k - 1` bytes. -/
theorem start_in_range (line pat : List Char) (k : Nat) (hpat : pat ≠ []) (hk1 : 1 ≤ k)
    (hk : k ≤ pat.length) (hlen : line.length < 2 ^ 31) (hmin : k - 1 ≤ line.length) :
    toSizeT (toInt (find line pat) + k) ≤ line.length := by
  rcases find_cases line pat hpat with ⟨-, hf⟩ | ⟨u, v, hs, -, hf⟩
  · rw [hf, toInt_npos]
    have e : (-1 : Int) + (k : Int) = ((k - 1 : Nat) : Int) := by omega
    rw [e, toSizeT_of_nonneg _ (by omega)]
    exact hmin
  · have hl : line.length = u.length + pat.length + v.length := by
      rw [hs]
      simp only [List.length_append]
    rw [hf, toInt_of_lt _ (by omega)]
    have e : (u.length : Int) + (k : Int) = ((u.length + k : Nat) : Int) := by omega
    rw [e, toSizeT_of_nonneg _ (by omega)]
    omega

theorem length_of_exec (line : List Char) (h : line.take 17 = "GET /cgi-bin/exec".toList) :
    17 ≤ line.length := by
  have h1 := congrArg List.length h
  rw [List.length_take] at h1
  have h2 : "GET /cgi-bin/exec".toList.length = 17 := rfl
  omega

/-! ## A negative count reaches the end of the line -/

theorem substr_to_end (s : List Char) (pos n : Nat) (hpos : pos ≤ s.length)
    (hn : s.length ≤ n) : substr s pos n = .ok (s.drop pos) := by
  rw [substr_of_le s pos n hpos, List.take_of_length_le]
  simp only [List.length_drop]
  omega

/-- The `int` result of a search for a pattern that occurs within the first
`m` bytes of the line is a position, and lies before `m` less the length of
the pattern. -/
theorem find_before (line pat a b : List Char) (m : Nat) (hpat : pat ≠ [])
    (hlen : line.length < 2 ^ 31) (hocc : line = a ++ pat ++ b) (hm : a.length + pat.length ≤ m) :
    ∃ p : Nat, toInt (find line pat) = (p : Int) ∧ p + pat.length ≤ m := by
  rcases find_cases line pat hpat with ⟨hn, -⟩ | ⟨u, v, hs, hfirst, hf⟩
  · exact absurd ⟨a, b, hocc.symm⟩ hn
  · have hle := first_occurrence_le pat u v a b hpat hfirst (by rw [← hs, ← hocc])
    have hl : line.length = u.length + pat.length + v.length := by
      rw [hs]
      simp only [List.length_append]
    refine ⟨u.length, ?_, by omega⟩
    rw [hf, toInt_of_lt _ (by omega)]

/-! ## Tokens of a string without quotes -/

theorem dropWhile_head_false (p : Char → Bool) (l : List Char) (c : Char) (rest : List Char)
    (h : l.dropWhile p = c :: rest) : p c = false := by
  induction l with
  | nil => simp at h
  | cons a l ih =>
    rw [List.dropWhile_cons] at h
    split at h
    · exact ih h
    · rename_i hp
      injection h with h1 h2
      subst h1
      simpa using hp

theorem nonSpaceRuns_nil : nonSpaceRuns [] = [] := rfl

theorem nonSpaceRuns_space (c : Char) (s : List Char) (h : isspace c = true) :
    nonSpaceRuns (c :: s) = nonSpaceRuns s := by
  simp [nonSpaceRuns, List.splitOnP_cons, h]

theorem nonSpaceRuns_dropWhile (s : List Char) :
    nonSpaceRuns s = nonSpaceRuns (s.dropWhile isspace) := by
  induction s with
  | nil => rfl
  | cons c s ih =>
    rw [List.dropWhile_cons]
    split
    · rename_i h
      rw [nonSpaceRuns_space c s h, ih]
    · rfl

theorem nonSpaceRuns_word (w rest : List Char) (hw : w ≠ [])
    (hall : ∀ x ∈ w, isspace x = false) (hrest : rest = [] ∨ ∃ sp r, rest = sp :: r ∧ isspace sp = true) :
    nonSpaceRuns (w ++ rest) = w :: nonSpaceRuns rest := by
  have hall2 : ∀ x ∈ w, ¬ (isspace x = true) := by
    intro x hx
    rw [hall x hx]
    exact Bool.false_ne_true
  have hwe : w.isEmpty = false := by
    cases w with
    | nil => exact absurd rfl hw
    | cons a w => rfl
  rcases hrest with rfl | ⟨sp, r, rfl, hsp⟩
  · rw [List.append_nil, nonSpaceRuns_nil]
    simp [nonSpaceRuns, List.splitOnP_eq_single isspace w hall2, hwe]
  · rw [nonSpaceRuns_space sp r hsp]
    simp [nonSpaceRuns, List.splitOnP_first isspace w hall2 sp hsp, hwe]

/-- On a string without a double quote the extractor reads plain words: it
fails when only white space is left, and otherwise returns the bytes up to
the next white space. -/
theorem readQuoted_unquoted (s : List Char) (hq : '"' ∉ s) :
    (s.dropWhile isspace = [] ∧ readQuoted s = none) ∨
    (∃ w rest, s.dropWhile isspace = w ++ rest ∧ w ≠ [] ∧ (∀ x ∈ w, isspace x = false) ∧
      (rest = [] ∨ ∃ sp r, rest = sp :: r ∧ isspace sp = true) ∧
      readQuoted s = some (w, rest)) := by
  cases hd : s.dropWhile isspace with
  | nil =>
    left
    refine ⟨rfl, ?_⟩
    simp only [readQuoted, hd]
  | cons c rest0 =>
    right
    have hc : isspace c = false := dropWhile_head_false isspace s c rest0 hd
    have hmem : c ∈ s := by
      have : c ∈ s.dropWhile isspace := by
        rw [hd]
        exact List.mem_cons_self _ _
      exact (List.dropWhile_suffix isspace).subset this
    have hcq : c ≠ '"' := fun h => hq (h ▸ hmem)
    have hsplit := List.takeWhile_append_dropWhile (fun x => !isspace x) (c :: rest0)
    have hw : List.takeWhile (fun x => !isspace x) (c :: rest0) ≠ [] := by
      simp [List.takeWhile_cons, hc]
    refine ⟨List.takeWhile (fun x => !isspace x) (c :: rest0),
      List.dropWhile (fun x => !isspace x) (c :: rest0), hsplit.symm, hw, ?_, ?_, ?_⟩
    · intro x hx
      have := List.mem_takeWhile_imp hx
      simpa using this
    · cases hr : List.dropWhile (fun x => !isspace x) (c :: rest0) with
      | nil => exact Or.inl rfl
      | cons sp r =>
        right
        have := dropWhile_head_false (fun x => !isspace x) (c :: rest0) sp r hr
        exact ⟨sp, r, rfl, by simpa using this⟩
    · have hskip : List.dropWhile isspace (c :: rest0) = c :: rest0 := by
        simp [List.dropWhile_cons, hc]
      simp only [readQuoted, hd, if_neg hcq, readWord, hskip, if_neg hw]

/-- Without a double quote the tokens are the maximal runs of bytes that are
not white space. -/
theorem tokenize_unquoted_aux (n : Nat) (s : List Char) (hn : s.length ≤ n) (hq : '"' ∉ s) :
    tokenize s = nonSpaceRuns s := by
  induction n generalizing s with
  | zero =>
    have : s = [] := List.length_eq_zero.mp (by omega)
    subst this
    rfl
  | succ n ih =>
    rcases readQuoted_unquoted s hq with ⟨hd, hr⟩ | ⟨w, rest, hd, hw, hall, hrest, hr⟩
    · rw [tokenize_stop s hr, nonSpaceRuns_dropWhile, hd, nonSpaceRuns_nil]
    · have hlen := readQuoted_length s w rest hr
      have hsub : ∀ x ∈ rest, x ∈ s := by
        intro x hx
        have : x ∈ s.dropWhile isspace := by
          rw [hd]
          exact List.mem_append_right _ hx
        exact (List.dropWhile_suffix isspace).subset this
      rw [tokenize_step s w rest hr, ih rest (by omega) (fun h => hq (hsub _ h)),
        nonSpaceRuns_dropWhile s, hd, nonSpaceRuns_word w rest hw hall hrest]

/-! ## Reading the header lines -/

/-- A result of `extractData` starts with the decoded command. -/
theorem extractData_ok_cons (line : List Char) (result : List (List Char))
    (h : extractData line = .ok result) : ∃ decCmd args, result = decCmd :: args := by
  rw [extractData_eq] at h
  cases h1 : substr line (toSizeT (toInt (find line "=".toList) + 1))
      (toSizeT (toInt (find line "&".toList) - toInt (find line "=".toList) - 1)) with
  | error e =>
    rw [h1] at h
    simp at h
  | ok cmd =>
    rw [h1] at h
    dsimp only at h
    cases h2 : url_decode cmd with
    | error e =>
      rw [h2] at h
      simp at h
    | ok decCmd =>
      rw [h2] at h
      dsimp only at h
      cases h3 : substr line (toSizeT (toInt (find line "args=".toList) + 5))
          (toSizeT (toInt (find line "HTTP".toList) - toInt (find line "args=".toList) - 5)) with
      | error e =>
        rw [h3] at h
        simp at h
      | ok argm =>
        rw [h3] at h
        dsimp only at h
        cases h4 : url_decode argm with
        | error e =>
          rw [h4] at h
          simp at h
        | ok decArgm =>
          rw [h4] at h
          simp only [Except.ok.injEq] at h
          exact ⟨decCmd, tokenize decArgm, h.symm⟩

/-! ## Lines of `2 ^ 31` bytes and more -/

theorem longPad_length : longPad.length = 2 ^ 31 := by
  unfold longPad
  exact List.length_replicate _ _

theorem not_mem_longPad (c : Char) (h : c ≠ 'z') : c ∉ longPad := by
  intro hc
  exact h (List.eq_of_mem_replicate hc)

theorem longPad_cons : longPad = 'z' :: List.replicate (2 ^ 31 - 1) 'z' := by
  unfold longPad
  have e : (2 : Nat) ^ 31 = (2 ^ 31 - 1) + 1 := by decide
  rw [e, List.replicate_succ]
  rfl

/-- An occurrence of `pat` in `a ++ r` lies in `r` when no byte of `a` is the
first byte of `pat`. -/
theorem infix_skip (pat a r : List Char) (hpat : pat ≠ [])
    (hhead : ∀ c ∈ a, pat.head? ≠ some c) (h : pat <:+: a ++ r) : pat <:+: r := by
  induction a with
  | nil => simpa using h
  | cons x a ih =>
    rw [List.cons_append, List.infix_cons_iff] at h
    rcases h with hp | hi
    · exfalso
      obtain ⟨p, ps, rfl⟩ := List.exists_cons_of_ne_nil hpat
      rw [List.cons_prefix_cons] at hp
      exact hhead x (List.mem_cons_self _ _) (by simp [hp.1])
    · exact ih (fun c hc => hhead c (List.mem_cons_of_mem _ hc)) hi

theorem infix_skip_longPad (pat r : List Char) (hpat : pat ≠ [])
    (hz : pat.head? ≠ some 'z') (h : pat <:+: longPad ++ r) : pat <:+: r := by
  apply infix_skip pat longPad r hpat _ h
  intro c hc
  rw [List.eq_of_mem_replicate hc]
  exact hz

/-- The first occurrence of `pat` behind `a`, the run `longPad` and `w`, when
no byte of `a` and of the run is the first byte of `pat` and `pat` does not
start within `w`. -/
theorem find_past_pad (pat a w v : List Char) (hpat : pat ≠ [])
    (hhead : ∀ c ∈ a, pat.head? ≠ some c) (hz : pat.head? ≠ some 'z')
    (hfirst : ¬ pat <:+: w ++ pat.dropLast) :
    find (a ++ longPad ++ w ++ pat ++ v) pat = a.length + 2 ^ 31 + w.length := by
  have h := find_first pat (a ++ longPad ++ w) v hpat (by
    intro hin
    rw [List.append_assoc, List.append_assoc] at hin
    exact hfirst (infix_skip_longPad pat _ hpat hz (infix_skip pat a _ hpat hhead hin)))
  rw [h]
  simp only [List.length_append, longPad_length]

/-- A position from `2 ^ 31` on becomes a negative `int`, and the start
position computed from it a `size_t` of at least `2 ^ 63`. -/
theorem start_past_int (p k : Nat) (h1 : 2 ^ 31 ≤ p) (h2 : p + k < 2 ^ 32) :
    2 ^ 63 ≤ toSizeT (toInt p + k) := by
  have e : toInt p = (p : Int) - 2 ^ 32 := by
    unfold toInt
    have hm : p % 2 ^ 32 = p := Nat.mod_eq_of_lt (by omega)
    rw [hm, if_neg (by omega)]
  rw [e]
  exact toSizeT_of_neg _ (by omega) (by omega)

theorem extractData_start_past (line : List Char)
    (h : line.length < toSizeT (toInt (find line "=".toList) + 1)) :
    extractData line = .error .out_of_range := by
  rw [extractData_eq, substr_of_gt _ _ _ h]

theorem not_mem_pad_line (c : Char) (a w : List Char) (ha : c ∉ a) (hz : c ≠ 'z')
    (hw : c ∉ w) : c ∉ a ++ longPad ++ w := by
  intro h
  rcases List.mem_append.mp h with h1 | h1
  · rcases List.mem_append.mp h1 with h2 | h2
    · exact ha h2
    · exact not_mem_longPad c hz h2
  · exact hw h1

theorem not_infix_pad_line (pat a r : List Char) (hpat : pat ≠ [])
    (hhead : ∀ c ∈ a, pat.head? ≠ some c) (hz : pat.head? ≠ some 'z') (hr : ¬ pat <:+: r) :
    ¬ pat <:+: a ++ longPad ++ r := by
  intro h
  rw [List.append_assoc] at h
  exact hr (infix_skip_longPad pat r hpat hz (infix_skip pat a _ hpat hhead h))

theorem toInt_past (p : Nat) (h1 : 2 ^ 31 ≤ p) (h2 : p < 2 ^ 32) :
    toInt p = (p : Int) - 2 ^ 32 := by
  unfold toInt
  have hm : p % 2 ^ 32 = p := Nat.mod_eq_of_lt h2
  rw [hm, if_neg (by omega)]

theorem pad_line_length (a w : List Char) :
    (a ++ longPad ++ w).length = a.length + 2 ^ 31 + w.length := by
  simp only [List.length_append, longPad_length]

/-- The first `=` of a line that has none within `a`, the run `longPad` and
`w`. -/
theorem find_eq_past_pad (a w v : List Char) (ha : '=' ∉ a) (hw : '=' ∉ w) :
    find (a ++ longPad ++ w ++ "=".toList ++ v) "=".toList = a.length + 2 ^ 31 + w.length := by
  apply find_past_pad "=".toList a w v (by decide)
  · intro c hc h
    have hc2 : c = '=' := by
      have h2 : some '=' = some c := h
      injection h2 with h3
      exact h3.symm
    exact ha (hc2 ▸ hc)
  · decide
  · intro h
    have h2 : ['='] <:+: w := by
      have e : w ++ "=".toList.dropLast = w := List.append_nil w
      rw [e] at h
      exact h
    exact hw ((singleton_infix_iff '=' w).mp h2)

/-- On a line whose first `=` stands at position `2 ^ 31` or later, the start
position of the first `substr` call of `extractData` is past the end of the
line, and the call raises `out_of_range`. -/
theorem extractData_long_line (a w v : List Char) (ha : '=' ∉ a) (hw : '=' ∉ w)
    (hlen : a.length + w.length + v.length < 2 ^ 30) :
    (a ++ longPad ++ w ++ "=".toList ++ v).length
        < toSizeT (toInt (find (a ++ longPad ++ w ++ "=".toList ++ v) "=".toList) + 1) ∧
    extractData (a ++ longPad ++ w ++ "=".toList ++ v) = .error .out_of_range := by
  have hgt : (a ++ longPad ++ w ++ "=".toList ++ v).length
      < toSizeT (toInt (find (a ++ longPad ++ w ++ "=".toList ++ v) "=".toList) + 1) := by
    rw [find_eq_past_pad a w v ha hw]
    have h := start_past_int (a.length + 2 ^ 31 + w.length) 1 (by omega) (by omega)
    have hl : (a ++ longPad ++ w ++ "=".toList ++ v).length
        = a.length + 2 ^ 31 + w.length + 1 + v.length := by
      simp only [List.length_append, longPad_length]
      rfl
    rw [hl]
    simp only [Nat.cast_one] at h
    omega
  exact ⟨hgt, extractData_start_past _ hgt⟩

/-! ## The segments behind the result of `extractData` -/

/-- The command segment decides the first element of the result: when the
first `substr` call of `extractData` returns `cmd`, a failure of
`url_decode cmd` is the failure of `extractData`, and the first element of a
result is the decoded `cmd`. -/
theorem extractData_cmd (line cmd : List Char)
    (hsub : substr line (toSizeT (toInt (find line "=".toList) + 1))
        (toSizeT (toInt (find line "&".toList) - toInt (find line "=".toList) - 1)) = .ok cmd) :
    (∀ e, url_decode cmd = .error e → extractData line = .error e) ∧
    (∀ result, extractData line = .ok result →
      ∃ decCmd, url_decode cmd = .ok decCmd ∧ result.head? = some decCmd) := by
  constructor
  · intro e he
    rw [extractData_eq, hsub]
    dsimp only
    rw [he]
  · intro result h
    rw [extractData_eq, hsub] at h
    dsimp only at h
    cases h2 : url_decode cmd with
    | error e =>
      rw [h2] at h
      exact absurd h (by simp)
    | ok decCmd =>
      rw [h2] at h
      dsimp only at h
      refine ⟨decCmd, rfl, ?_⟩
      cases h3 : substr line (toSizeT (toInt (find line "args=".toList) + 5))
          (toSizeT (toInt (find line "HTTP".toList) - toInt (find line "args=".toList) - 5)) with
      | error e =>
        rw [h3] at h
        exact absurd h (by simp)
      | ok argm =>
        rw [h3] at h
        dsimp only at h
        cases h4 : url_decode argm with
        | error e =>
          rw [h4] at h
          exact absurd h (by simp)
        | ok decArgm =>
          rw [h4] at h
          simp only [Except.ok.injEq] at h
          subst h
          rfl

/-- The argument segment decides the rest of the result: when the second
`substr` call of `extractData` returns `argm`, `extractData` fails when
`url_decode argm` fails, and the elements of a result after the first are the
tokens of the decoded `argm`. -/
theorem extractData_argm (line argm : List Char)
    (hsub : substr line (toSizeT (toInt (find line "args=".toList) + 5))
        (toSizeT (toInt (find line "HTTP".toList) - toInt (find line "args=".toList) - 5))
      = .ok argm) :
    (∀ e, url_decode argm = .error e → ∃ e2, extractData line = .error e2) ∧
    (∀ result, extractData line = .ok result →
      ∃ decArgm, url_decode argm = .ok decArgm ∧ result.tail = tokenize decArgm) := by
  have hcases : (∃ e2, extractData line = .error e2) ∨
      ∃ decCmd, extractData line
        = match url_decode argm with
          | .error e => .error e
          | .ok decArgm => .ok (decCmd :: tokenize decArgm) := by
    rw [extractData_eq]
    cases h1 : substr line (toSizeT (toInt (find line "=".toList) + 1))
        (toSizeT (toInt (find line "&".toList) - toInt (find line "=".toList) - 1)) with
    | error e => exact Or.inl ⟨e, rfl⟩
    | ok cmd =>
      dsimp only
      cases h2 : url_decode cmd with
      | error e => exact Or.inl ⟨e, rfl⟩
      | ok decCmd =>
        dsimp only
        rw [hsub]
        exact Or.inr ⟨decCmd, rfl⟩
  constructor
  · intro e he
    rcases hcases with h | ⟨decCmd, h⟩
    · exact h
    · rw [he] at h
      exact ⟨e, h⟩
  · intro result hres
    rcases hcases with ⟨e2, h⟩ | ⟨decCmd, h⟩
    · rw [h] at hres
      exact absurd hres (by simp)
    · cases h4 : url_decode argm with
      | error e =>
        rw [h4, hres] at h
        exact absurd h (by simp)
      | ok decArgm =>
        rw [h4, hres] at h
        simp only [Except.ok.injEq] at h
        subst h
        exact ⟨decArgm, rfl, rfl⟩

theorem longPad_head : ∃ t, longPad = 'z' :: t := ⟨_, longPad_cons⟩

/-- A line does not start with `GET /cgi-bin/exec` when the run `longPad`
begins within its first 17 bytes. -/
theorem take_ne_exec_of_pad (a b w : List Char) (hP : "GET /cgi-bin/exec".toList = a ++ b)
    (hb : b ≠ []) (hz : b.head? ≠ some 'z') :
    (a ++ longPad ++ w).take 17 ≠ "GET /cgi-bin/exec".toList := by
  intro h
  have hp := List.take_prefix 17 (a ++ longPad ++ w)
  rw [h, hP, List.append_assoc, List.prefix_append_right_inj] at hp
  obtain ⟨t, ht⟩ := longPad_head
  obtain ⟨c, b2, rfl⟩ := List.exists_cons_of_ne_nil hb
  rw [ht, List.cons_append, List.cons_prefix_cons] at hp
  exact hz (by simp [hp.1])

theorem get_slash_append (r : List Char) :
    "GET ".toList ++ ('/' :: r) = "GET /".toList ++ r := rfl

/-- On a line that begins with `longPad` and then holds `GET `, the start
position of the `substr` call of `errorCase` is past the end of the line. -/
theorem errorCase_long_line (v os : List Char) (hlen : v.length < 2 ^ 30) :
    errorCase (longPad ++ "GET ".toList ++ v) os = ⟨os, some .out_of_range⟩ := by
  apply errorCase_of_gt
  have hfind : find (longPad ++ "GET ".toList ++ v) "GET ".toList = longPad.length :=
    find_first "GET ".toList longPad v (by decide) (by
      intro h
      exact not_infix_dropLast "GET ".toList (by decide)
        (infix_skip_longPad "GET ".toList _ (by decide) (by decide) h))
  have h := start_past_int (2 ^ 31) 5 (le_refl _) (by decide)
  have hl : (longPad ++ "GET ".toList ++ v).length = 2 ^ 31 + 4 + v.length := by
    simp only [List.length_append, longPad_length]
    rfl
  rw [hfind, longPad_length, hl]
  simp only [Nat.cast_ofNat] at h
  omega

/-! ## Claims -/

/-- C1. Execution-path body round trip: whatever the child writes and whatever
wait status it leaves, the bytes that `OutputChildProcess` (through
`outputSizeAndData`) appends to the stream are consumed completely by the
strict chunked decoder and decode to one chunk `l ++ "\n"` for every line `l`
that `getline` splits the child output into, followed by the one chunk
`"Exit code: " ++ decimal status`, each with a length field equal to the byte
length of its payload.  For the child output `"hi\n"` and status `0` these are
the two chunks `"hi\n"` and `"Exit code: 0"`, followed by the zero chunk. -/
theorem exec_body_round_trip (child : List (List Char) → List Char × Int)
    (myVec : List (List Char)) (os : List Char) :
    (∃ body, OutputChildProcess child myVec os = os ++ body ∧
      chunkedDecode body
        = some (((getlines (child myVec).1).map (fun l => l ++ ['\n'])
            ++ ["Exit code: ".toList ++ to_string (child myVec).2]).map
              (fun c => (c.length, c)))) ∧
    OutputChildProcess (fun _ => ("hi\n".toList, 0)) ["echo".toList, "hi".toList] []
      = "3\r\nhi\n\r\nc\r\nExit code: 0\r\n0\r\n\r\n".toList ∧
    chunkedDecode "3\r\nhi\n\r\nc\r\nExit code: 0\r\n0\r\n\r\n".toList
      = some [(3, "hi\n".toList), (12, "Exit code: 0".toList)] := by
  refine ⟨⟨_, OutputChildProcess_eq child myVec os, ?_⟩, by decide, by decide⟩
  apply chunkedDecode_frames
  intro c hc
  rcases List.mem_append.mp hc with h | h
  · obtain ⟨l, -, rfl⟩ := List.mem_map.mp h
    simp
  · simp only [List.mem_singleton] at h
    subst h
    simp [show "Exit code: ".toList = ['E', 'x', 'i', 't', ' ', 'c', 'o', 'd', 'e', ':', ' '] from rfl]

/-- C2, the code at the failing input `GET /blah.txt HTTP/1.1`: `errorCase`
writes the length field `1a`, that is 26, then the 26 bytes of the message
and the newline of `endl`, 27 bytes, before the CRLF that should end the
chunk; the strict chunked decoder rejects the body. -/
theorem errorCase_length_field_short :
    errorCase "GET /blah.txt HTTP/1.1".toList []
      = ⟨"1a\r\n".toList ++ "Invalid request: blah.txt \n".toList ++ "\r\n".toList
          ++ "0\r\n\r\n".toList, none⟩ ∧
    lowerHexValue "1a".toList = 26 ∧
    "Invalid request: blah.txt \n".toList.length = 27 ∧
    chunkedDecode (errorCase "GET /blah.txt HTTP/1.1".toList []).os = none := by
  decide

/-- C3, as amended. Anchor-based extraction: on every request line shorter
than `2 ^ 31` bytes in which the first `=` stands before the first `&`, with
the text `C` strictly between them, and the first `args=` stands before the
first `HTTP`, with the text `A` strictly between them, `extractData` returns
the decoded `C` followed by the quoted tokens of the decoded `A`; a failure of
either decode is the failure of `extractData`. -/
theorem extractData_anchors (line pre C post pre2 A post2 : List Char)
    (hlen : line.length < 2 ^ 31)
    (hcmd : line = pre ++ ['='] ++ C ++ ['&'] ++ post)
    (heq : '=' ∉ pre) (hamp : '&' ∉ pre) (hC : '&' ∉ C)
    (hargs : line = pre2 ++ "args=".toList ++ A ++ "HTTP".toList ++ post2)
    (hfirstArgs : ¬ "args=".toList <:+: pre2 ++ "args".toList)
    (hfirstHttp : ¬ "HTTP".toList <:+: pre2 ++ "args=".toList ++ A ++ "HTT".toList) :
    extractData line
      = match url_decode C with
        | .error e => .error e
        | .ok decCmd =>
          match url_decode A with
          | .error e => .error e
          | .ok decArgm => .ok (decCmd :: tokenize decArgm) := by
  have hl1 : line.length = pre.length + 1 + C.length + 1 + post.length := by
    rw [hcmd]
    simp only [List.length_append, List.length_singleton]
  have hl2 : line.length = pre2.length + 5 + A.length + 4 + post2.length := by
    rw [hargs]
    simp only [List.length_append]
    rfl
  have hp1 : find line "=".toList = pre.length := by
    have := find_first ['='] pre (C ++ ['&'] ++ post) (by simp)
      (by simpa [singleton_infix_iff] using heq)
    rw [hcmd]
    simpa using this
  have hp2 : find line "&".toList = pre.length + 1 + C.length := by
    have := find_first ['&'] (pre ++ ['='] ++ C) post (by simp)
      (by simp [singleton_infix_iff, hamp, hC])
    rw [hcmd]
    have hlen2 : (pre ++ ['='] ++ C).length = pre.length + 1 + C.length := by
      simp only [List.length_append, List.length_singleton]
    rw [hlen2] at this
    simpa using this
  have hp3 : find line "args=".toList = pre2.length := by
    have := find_first "args=".toList pre2 (A ++ "HTTP".toList ++ post2) (by decide) hfirstArgs
    rw [hargs]
    simpa using this
  have hp4 : find line "HTTP".toList = pre2.length + 5 + A.length := by
    have := find_first "HTTP".toList (pre2 ++ "args=".toList ++ A) post2 (by decide) hfirstHttp
    rw [hargs]
    have hlen2 : (pre2 ++ "args=".toList ++ A).length = pre2.length + 5 + A.length := by
      simp only [List.length_append]
      rfl
    rw [hlen2] at this
    simpa using this
  have hs1 : substr line (pre.length + 1) C.length = .ok C := by
    have := substr_append (pre ++ ['=']) C (['&'] ++ post)
    rw [hcmd]
    simpa using this
  have hs2 : substr line (pre2.length + 5) A.length = .ok A := by
    have := substr_append (pre2 ++ "args=".toList) A ("HTTP".toList ++ post2)
    rw [hargs]
    simpa using this
  have e1 : toSizeT (toInt (find line "=".toList) + 1) = pre.length + 1 := by
    rw [hp1, toInt_of_lt _ (by omega)]
    exact_mod_cast toSizeT_of_nonneg (pre.length + 1) (by omega)
  have e2 : toSizeT (toInt (find line "&".toList) - toInt (find line "=".toList) - 1)
      = C.length := by
    rw [hp1, hp2, toInt_of_lt _ (by omega), toInt_of_lt _ (by omega)]
    have : ((pre.length + 1 + C.length : Nat) : Int) - (pre.length : Int) - 1 = (C.length : Int) := by
      push_cast
      ring
    rw [this]
    exact toSizeT_of_nonneg _ (by omega)
  have e3 : toSizeT (toInt (find line "args=".toList) + 5) = pre2.length + 5 := by
    rw [hp3, toInt_of_lt _ (by omega)]
    exact_mod_cast toSizeT_of_nonneg (pre2.length + 5) (by omega)
  have e4 : toSizeT (toInt (find line "HTTP".toList) - toInt (find line "args=".toList) - 5)
      = A.length := by
    rw [hp3, hp4, toInt_of_lt _ (by omega), toInt_of_lt _ (by omega)]
    have : ((pre2.length + 5 + A.length : Nat) : Int) - (pre2.length : Int) - 5 = (A.length : Int) := by
      push_cast
      ring
    rw [this]
    exact toSizeT_of_nonneg _ (by omega)
  simp only [extractData, e1, e2, e3, e4, hs1, hs2, bind_ok]
  cases url_decode C with
  | error e => rfl
  | ok c =>
    cases url_decode A with
    | error e => rfl
    | ok a => rfl

/-- Witness of C3: the request line
`GET /cgi-bin/exec?cmd=%2Fbin%2Fecho&args=hello%20world HTTP/1.1` gives the
command `/bin/echo` with the arguments `hello` and `world`. -/
theorem extractData_anchors_witness :
    extractData "GET /cgi-bin/exec?cmd=%2Fbin%2Fecho&args=hello%20world HTTP/1.1".toList
      = .ok ["/bin/echo".toList, "hello".toList, "world".toList] :=
  (extractData_anchors
    "GET /cgi-bin/exec?cmd=%2Fbin%2Fecho&args=hello%20world HTTP/1.1".toList
    "GET /cgi-bin/exec?cmd".toList "%2Fbin%2Fecho".toList "args=hello%20world HTTP/1.1".toList
    "GET /cgi-bin/exec?cmd=%2Fbin%2Fecho&".toList "hello%20world ".toList "/1.1".toList
    (by decide) (by decide) (by decide) (by decide) (by decide) (by decide) (by decide)
    (by decide)).trans (by decide)

/-- Counterexample to C3 as stated: the request line `GET /cgi-bin/exec?`,
`2 ^ 31` bytes `z`, `cmd=x&args=y HTTP/1.1`.  Its first `=` stands before its
first `&` with `x` between them, its first `args=` before its first `HTTP`
with `y ` between them, and both texts decode to themselves; yet the position
of the `=` does not fit the `int` that holds it, the first `substr` call
starts past the end of the line, and `extractData` raises `out_of_range`
instead of returning `x` and `y`. -/
theorem extractData_anchors_long_line :
    2 ^ 31 ≤ ("GET /cgi-bin/exec?".toList ++ longPad ++ "cmd=x&args=y HTTP/1.1".toList).length ∧
    "GET /cgi-bin/exec?".toList ++ longPad ++ "cmd=x&args=y HTTP/1.1".toList
      = ("GET /cgi-bin/exec?".toList ++ longPad ++ "cmd".toList) ++ ['='] ++ "x".toList ++ ['&']
          ++ "args=y HTTP/1.1".toList ∧
    '=' ∉ "GET /cgi-bin/exec?".toList ++ longPad ++ "cmd".toList ∧
    '&' ∉ "GET /cgi-bin/exec?".toList ++ longPad ++ "cmd".toList ∧
    '&' ∉ "x".toList ∧
    "GET /cgi-bin/exec?".toList ++ longPad ++ "cmd=x&args=y HTTP/1.1".toList
      = ("GET /cgi-bin/exec?".toList ++ longPad ++ "cmd=x&".toList) ++ "args=".toList
          ++ "y ".toList ++ "HTTP".toList ++ "/1.1".toList ∧
    ¬ "args=".toList
        <:+: ("GET /cgi-bin/exec?".toList ++ longPad ++ "cmd=x&".toList) ++ "args".toList ∧
    ¬ "HTTP".toList
        <:+: ("GET /cgi-bin/exec?".toList ++ longPad ++ "cmd=x&".toList) ++ "args=".toList
          ++ "y ".toList ++ "HTT".toList ∧
    url_decode "x".toList = .ok "x".toList ∧
    url_decode "y ".toList = .ok "y ".toList ∧
    extractData ("GET /cgi-bin/exec?".toList ++ longPad ++ "cmd=x&args=y HTTP/1.1".toList)
      = .error .out_of_range := by
  have hsplit : "cmd=x&args=y HTTP/1.1".toList
      = "cmd".toList ++ "=".toList ++ "x&args=y HTTP/1.1".toList := by decide
  refine ⟨?_, ?_, ?_, ?_, by decide, ?_, ?_, ?_, by decide, by decide, ?_⟩
  · rw [pad_line_length]
    omega
  · have e : "cmd=x&args=y HTTP/1.1".toList
        = "cmd".toList ++ (['='] ++ ("x".toList ++ (['&'] ++ "args=y HTTP/1.1".toList))) := by
      decide
    rw [e]
    simp only [List.append_assoc]
  · exact not_mem_pad_line '=' _ _ (by decide) (by decide) (by decide)
  · exact not_mem_pad_line '&' _ _ (by decide) (by decide) (by decide)
  · have e : "cmd=x&args=y HTTP/1.1".toList
        = "cmd=x&".toList ++ ("args=".toList ++ ("y ".toList ++ ("HTTP".toList ++ "/1.1".toList))) := by
      decide
    rw [e]
    simp only [List.append_assoc]
  · rw [List.append_assoc]
    exact not_infix_pad_line "args=".toList _ _ (by decide) (by decide) (by decide) (by decide)
  · rw [List.append_assoc, List.append_assoc, List.append_assoc]
    exact not_infix_pad_line "HTTP".toList _ _ (by decide) (by decide) (by decide) (by decide)
  · have h := (extractData_long_line "GET /cgi-bin/exec?".toList "cmd".toList
      "x&args=y HTTP/1.1".toList (by decide) (by decide) (by decide)).2
    rw [hsplit]
    simp only [List.append_assoc] at h ⊢
    exact h

/-- C4. `url_decode` equals the reference single-pass decoder: on every input
in which each `%` met by the left-to-right scan is followed by two hexadecimal
digits, `url_decode` returns the input with every `+` replaced by a space,
every such `%XX` replaced by the byte with value `0xXX`, and every other byte
unchanged and in order; the bytes produced are not decoded again. -/
theorem url_decode_reference (s : List Char) (h : WellEncoded s = true) :
    url_decode s = .ok (refDecode s) := by
  rw [url_decode_eq]
  exact decodeRest_wellEncoded s.length s (le_refl _) h

/-- Witness of C4: `a+b%20c` decodes to `a b c`, `%2B` to `+` and `%2520` to
`%20`. -/
theorem url_decode_reference_witness :
    (WellEncoded "a+b%20c".toList = true ∧ url_decode "a+b%20c".toList = .ok "a b c".toList) ∧
    (WellEncoded "%2B".toList = true ∧ url_decode "%2B".toList = .ok "+".toList) ∧
    (WellEncoded "%2520".toList = true ∧ url_decode "%2520".toList = .ok "%20".toList) :=
  ⟨⟨by decide, (url_decode_reference "a+b%20c".toList (by decide)).trans (by decide)⟩,
   ⟨by decide, (url_decode_reference "%2B".toList (by decide)).trans (by decide)⟩,
   ⟨by decide, (url_decode_reference "%2520".toList (by decide)).trans (by decide)⟩⟩

/-- C5. `url_decode` is the identity on clean input: a string that contains
neither `%` nor `+` is returned unchanged, and the call does not fail. -/
theorem url_decode_identity (s : List Char) (hpercent : '%' ∉ s) (hplus : '+' ∉ s) :
    url_decode s = .ok s := by
  rw [url_decode_eq]
  apply decodeRest_clean
  intro x hx
  have h1 : x ≠ '%' := fun h => hpercent (h ▸ hx)
  have h2 : x ≠ '+' := fun h => hplus (h ▸ hx)
  simp [isEscape, h1, h2]

/-- Witness of C5 at the string `/bin/echo hello`. -/
theorem url_decode_identity_witness :
    '%' ∉ "/bin/echo hello".toList ∧ '+' ∉ "/bin/echo hello".toList ∧
    url_decode "/bin/echo hello".toList = .ok "/bin/echo hello".toList :=
  ⟨by decide, by decide, url_decode_identity "/bin/echo hello".toList (by decide) (by decide)⟩

/-- C6, as amended. The not-found path completes when the file name can be
cut out: for every request line shorter than `2 ^ 31` bytes that does not
start with `GET /cgi-bin/exec`, and in which some `GET ` is followed by at
least one byte, or which holds no `GET ` and has at least four bytes,
`stringProcessing` completes without raising an error and writes exactly the
status line `HTTP/1.1 404 Not Found`, the header block, one length line that
gives in hexadecimal the byte length of the message `Invalid request: `
followed by a file name, the file name being a part of the line, then CRLF,
that message, a line feed, CRLF and the zero chunk.  On every other such line
the `substr` call raises `out_of_range` after the status line and the header
block are written, and nothing more is written. -/
theorem not_found_path (child : List (List Char) → List Char × Int) (line : List Char)
    (hlen : line.length < 2 ^ 31) (hnot : line.take 17 ≠ "GET /cgi-bin/exec".toList) :
    (((∃ u v, line = u ++ "GET ".toList ++ v ∧ v ≠ []) ∨
        (¬ "GET ".toList <:+: line ∧ 4 ≤ line.length)) →
      ∃ fileName, fileName <:+: line ∧
        stringProcessing child line []
          = ⟨"HTTP/1.1 404 Not Found\r\n".toList
              ++ "Content-Type: text/plain\r\nTransfer-Encoding: chunked\r\nConnection: Close\r\n\r\n".toList
              ++ toHex ("Invalid request: ".toList ++ fileName).length ++ "\r\n".toList
              ++ "Invalid request: ".toList ++ fileName ++ "\n".toList ++ "\r\n".toList
              ++ "0\r\n\r\n".toList, none⟩) ∧
    (¬ ((∃ u v, line = u ++ "GET ".toList ++ v ∧ v ≠ []) ∨
        (¬ "GET ".toList <:+: line ∧ 4 ≤ line.length)) →
      stringProcessing child line []
        = ⟨"HTTP/1.1 404 Not Found\r\n".toList
            ++ "Content-Type: text/plain\r\nTransfer-Encoding: chunked\r\nConnection: Close\r\n\r\n".toList,
            some .out_of_range⟩) := by
  rw [stringProcessing_not_found child line [] hnot, printRegular_eq, List.nil_append]
  have hiff : ((∃ u v, line = u ++ "GET ".toList ++ v ∧ v ≠ []) ∨
        (¬ "GET ".toList <:+: line ∧ 4 ≤ line.length))
      ↔ toSizeT (toInt (find line "GET ".toList) + 5) ≤ line.length := by
    rcases errorCase_start line hlen with ⟨hn, hpos⟩ | ⟨u, v, hs, hfirst, hpos⟩
    · rw [hpos]
      constructor
      · rintro (⟨u, v, hs, -⟩ | ⟨-, h4⟩)
        · exact absurd ⟨u, v, hs.symm⟩ hn
        · exact h4
      · intro h4
        exact Or.inr ⟨hn, h4⟩
    · rw [hpos]
      have hl : line.length = u.length + 4 + v.length := by
        rw [hs]
        simp only [List.length_append]
        rfl
      constructor
      · rintro (⟨u2, v2, hs2, hv2⟩ | ⟨hn, -⟩)
        · have hle := first_occurrence_le "GET ".toList u v u2 v2 (by decide) hfirst
            (by rw [← hs, ← hs2])
          have hl2 : line.length = u2.length + 4 + v2.length := by
            rw [hs2]
            simp only [List.length_append]
            rfl
          have : 0 < v2.length := List.length_pos.mpr hv2
          omega
        · exact absurd ⟨u, v, hs.symm⟩ hn
      · intro h5
        refine Or.inl ⟨u, v, hs, ?_⟩
        intro hv
        rw [hv] at hl
        simp only [List.length_nil] at hl
        omega
  constructor
  · intro hrange
    have hle := hiff.mp hrange
    have hsub := substr_of_le line (toSizeT (toInt (find line "GET ".toList) + 5))
      (toSizeT (toInt (find line "HTTP/1.1".toList) - toInt (find line "GET ".toList) - 5)) hle
    rw [errorCase_of_substr line _ _ hsub]
    refine ⟨(line.drop (toSizeT (toInt (find line "GET ".toList) + 5))).take
      (toSizeT (toInt (find line "HTTP/1.1".toList) - toInt (find line "GET ".toList) - 5)),
      ?_, by simp only [List.append_assoc]⟩
    exact (List.take_prefix _ _).isInfix.trans (List.drop_suffix _ _).isInfix
  · intro hrange
    have hgt : line.length < toSizeT (toInt (find line "GET ".toList) + 5) := by
      by_contra hle
      exact hrange (hiff.mpr (Nat.not_lt.mp hle))
    rw [errorCase_of_gt line _ hgt]

/-- Counterexamples to C6 as stated.  The empty line does not start with
`GET /cgi-bin/exec`, and on it `stringProcessing` raises `out_of_range`
after the status line and the header block; no chunk is written.  The same
happens on the line made of `2 ^ 31` bytes `z` and `GET /x HTTP/1.1`, in
which `GET ` is followed by bytes: the position of `GET ` does not fit the
`int` that holds it. -/
theorem not_found_path_raises :
    (([] : List Char).take 17 ≠ "GET /cgi-bin/exec".toList ∧
      stringProcessing (fun _ => ([], 0)) [] []
        = ⟨"HTTP/1.1 404 Not Found\r\nContent-Type: text/plain\r\nTransfer-Encoding: chunked\r\nConnection: Close\r\n\r\n".toList,
            some .out_of_range⟩) ∧
    (2 ^ 31 ≤ (longPad ++ "GET /x HTTP/1.1".toList).length ∧
      (longPad ++ "GET /x HTTP/1.1".toList).take 17 ≠ "GET /cgi-bin/exec".toList ∧
      longPad ++ "GET /x HTTP/1.1".toList = longPad ++ "GET ".toList ++ "/x HTTP/1.1".toList ∧
      "/x HTTP/1.1".toList ≠ [] ∧
      stringProcessing (fun _ => ([], 0)) (longPad ++ "GET /x HTTP/1.1".toList) []
        = ⟨"HTTP/1.1 404 Not Found\r\nContent-Type: text/plain\r\nTransfer-Encoding: chunked\r\nConnection: Close\r\n\r\n".toList,
            some .out_of_range⟩) := by
  have hnot : (longPad ++ "GET /x HTTP/1.1".toList).take 17 ≠ "GET /cgi-bin/exec".toList := by
    have h := take_ne_exec_of_pad [] "GET /cgi-bin/exec".toList "GET /x HTTP/1.1".toList rfl
      (by decide) (by decide)
    rw [List.nil_append] at h
    exact h
  have hline : longPad ++ "GET /x HTTP/1.1".toList
      = longPad ++ "GET ".toList ++ "/x HTTP/1.1".toList := by
    rw [List.append_assoc]
    rfl
  refine ⟨by decide, ?_, hnot, hline, by decide, ?_⟩
  · rw [List.length_append, longPad_length]
    omega
  · rw [stringProcessing_not_found _ _ [] hnot, printRegular_eq, List.nil_append, hline,
      errorCase_long_line _ _ (by decide)]
    rfl

/-- Witness of C6 as amended: the request line `GET /blah.txt HTTP/1.1`. -/
theorem not_found_path_witness :
    ∃ fileName, fileName <:+: "GET /blah.txt HTTP/1.1".toList ∧
      stringProcessing (fun _ => ([], 0)) "GET /blah.txt HTTP/1.1".toList []
        = ⟨"HTTP/1.1 404 Not Found\r\n".toList
            ++ "Content-Type: text/plain\r\nTransfer-Encoding: chunked\r\nConnection: Close\r\n\r\n".toList
            ++ toHex ("Invalid request: ".toList ++ fileName).length ++ "\r\n".toList
            ++ "Invalid request: ".toList ++ fileName ++ "\n".toList ++ "\r\n".toList
            ++ "0\r\n\r\n".toList, none⟩ :=
  (not_found_path (fun _ => ([], 0)) "GET /blah.txt HTTP/1.1".toList (by decide) (by decide)).1
    (Or.inl ⟨[], "/blah.txt HTTP/1.1".toList, by decide, by decide⟩)

/-- C7. Dispatch and header block: the response begins with the status line
`HTTP/1.1 200 OK` exactly when the first 17 bytes of the request line are
`GET /cgi-bin/exec`, and with `HTTP/1.1 404 Not Found` otherwise; the status
line is followed at once by the header block, which stands exactly once in
the part of the response before the body; what follows is empty when the
call was ended by an exception, and otherwise starts with the length line of
the first body chunk. -/
theorem dispatch_header_block (child : List (List Char) → List Char × Int) (line : List Char) :
    ("HTTP/1.1 200 OK\r\n".toList <+: (stringProcessing child line []).os
      ↔ line.take 17 = "GET /cgi-bin/exec".toList) ∧
    (line.take 17 ≠ "GET /cgi-bin/exec".toList →
      "HTTP/1.1 404 Not Found\r\n".toList <+: (stringProcessing child line []).os) ∧
    ∃ status body,
      (status = "HTTP/1.1 200 OK\r\n".toList ∨ status = "HTTP/1.1 404 Not Found\r\n".toList) ∧
      (stringProcessing child line []).os
        = status
          ++ "Content-Type: text/plain\r\nTransfer-Encoding: chunked\r\nConnection: Close\r\n\r\n".toList
          ++ body ∧
      occurrences
        "Content-Type: text/plain\r\nTransfer-Encoding: chunked\r\nConnection: Close\r\n\r\n".toList
        (status
          ++ "Content-Type: text/plain\r\nTransfer-Encoding: chunked\r\nConnection: Close\r\n\r\n".toList)
        = 1 ∧
      ((stringProcessing child line []).failure ≠ none → body = []) ∧
      ((stringProcessing child line []).failure = none →
        ∃ n rest, 0 < n ∧ body = toHex n ++ "\r\n".toList ++ rest) := by
  by_cases h : line.take 17 = "GET /cgi-bin/exec".toList
  · rw [stringProcessing_exec child line [] h, printRegular_eq, List.nil_append]
    cases extractData line with
    | error e =>
      refine ⟨⟨fun _ => h, fun _ => ⟨_, rfl⟩⟩, fun hn => absurd h hn, ?_⟩
      refine ⟨"HTTP/1.1 200 OK\r\n".toList, [], Or.inl rfl, by simp, by decide, fun _ => rfl, ?_⟩
      intro hf
      simp at hf
    | ok result =>
      simp only [OutputChildProcess_eq]
      refine ⟨⟨fun _ => h, fun _ => ⟨_, by rw [List.append_assoc]⟩⟩, fun hn => absurd h hn, ?_⟩
      refine ⟨"HTTP/1.1 200 OK\r\n".toList, _, Or.inl rfl, rfl, by decide, ?_, ?_⟩
      · intro hf
        simp at hf
      · intro _
        apply frames_head
        · simp
        · intro c hc
          rcases List.mem_append.mp hc with h1 | h1
          · obtain ⟨l, -, rfl⟩ := List.mem_map.mp h1
            simp
          · simp only [List.mem_singleton] at h1
            subst h1
            exact List.append_ne_nil_of_left_ne_nil (by decide) _
  · rw [stringProcessing_not_found child line [] h, printRegular_eq, List.nil_append]
    cases hsub : substr line (toSizeT (toInt (find line "GET ".toList) + 5))
          (toSizeT (toInt (find line "HTTP/1.1".toList) - toInt (find line "GET ".toList) - 5)) with
    | error e =>
      rw [errorCase_of_error line _ e hsub]
      refine ⟨⟨fun hp => absurd hp (not_prefix_200_404 _), fun hp => absurd hp h⟩,
        fun _ => ⟨_, rfl⟩, ?_⟩
      refine ⟨"HTTP/1.1 404 Not Found\r\n".toList, [], Or.inr rfl, by simp, by decide,
        fun _ => rfl, ?_⟩
      intro hf
      simp at hf
    | ok fileName =>
      rw [errorCase_of_substr line _ fileName hsub]
      refine ⟨⟨fun hp => ?_, fun hp => absurd hp h⟩, fun _ => ⟨_, by simp only [List.append_assoc]; rfl⟩, ?_⟩
      · simp only [List.append_assoc] at hp
        exact absurd hp (not_prefix_200_404 _)
      · refine ⟨"HTTP/1.1 404 Not Found\r\n".toList, _, Or.inr rfl,
          by simp only [List.append_assoc]; rfl, by decide, ?_, ?_⟩
        · intro hf
          simp at hf
        · intro _
          refine ⟨("Invalid request: ".toList ++ fileName).length,
            "Invalid request: ".toList ++ fileName ++ "\n".toList ++ "\r\n".toList
              ++ "0\r\n\r\n".toList, ?_, by simp only [List.append_assoc]⟩
          rw [List.length_append]
          exact Nat.lt_of_lt_of_le (by decide) (Nat.le_add_right _ _)

/-- C8, as amended. Quoted tokens are taken as they are when they hold no
backslash: for every string `s` without double quote and without backslash
(white space and any other byte allowed), the tokenizer of `extractData`
turns the argument string `"` `s` `"` into the one token `s`. -/
theorem tokenize_quoted (s : List Char) (hq : '"' ∉ s) (hb : '\\' ∉ s) :
    tokenize (['"'] ++ s ++ ['"']) = [s] := by
  have hstr : ['"'] ++ s ++ ['"'] = '"' :: (s ++ ['"']) := by simp
  have hfuel : ('"' :: (s ++ ['"'])).length + 1 = (s.length + 1 + 1) + 1 := by
    simp only [List.length_append, List.length_cons, List.length_nil]
  have hbody := readQuotedBody_run s [] [] hq hb
  rw [List.nil_append] at hbody
  unfold tokenize
  rw [hstr, hfuel, tokenizeLoop_step, readQuoted_quote, hbody]
  simp only []
  rw [tokenizeLoop_step, readQuoted_nil]

/-- Counterexample to C8 as stated: the string `a\b` holds no double quote,
yet the argument string `"a\b"` gives the token `ab`, not `a\b`: the
extractor of `std::quoted` takes the backslash as an escape. -/
theorem tokenize_quoted_backslash :
    '"' ∉ "a\\b".toList ∧
    tokenize (['"'] ++ "a\\b".toList ++ ['"']) = ["ab".toList] ∧
    tokenize (['"'] ++ "a\\b".toList ++ ['"']) ≠ ["a\\b".toList] := by
  decide

/-- Witness of C8 as amended: the argument string `"hello  big world"`. -/
theorem tokenize_quoted_witness :
    tokenize "\"hello  big world\"".toList = ["hello  big world".toList] :=
  tokenize_quoted "hello  big world".toList (by decide) (by decide)

/-- C9, the code at a child that exits with code 1, for which `waitpid` stores
the status 256: the chunk before the zero chunk is `Exit code: 256`, the wait
status, not `Exit code: 1`. -/
theorem exit_chunk_wait_status :
    OutputChildProcess (fun _ => ([], 256)) ["false".toList] []
      = "e\r\nExit code: 256\r\n0\r\n\r\n".toList ∧
    chunkedDecode (OutputChildProcess (fun _ => ([], 256)) ["false".toList] [])
      = some [(14, "Exit code: 256".toList)] ∧
    "Exit code: 256".toList ≠ "Exit code: ".toList ++ to_string 1 := by
  decide

/-- C10, as amended. File name in the not-found response: for every request
line shorter than `2 ^ 31` bytes of the form `GET ` `f` `HTTP/1.1` in which
`f` is not empty and holds no `HTTP/1.1`, `errorCase` completes and writes
exactly one length line and one text, those of `Invalid request: ` followed
by `f` without its first byte, and after the text only a line feed, CRLF and
the zero chunk: the file name is cut five bytes after the start of `GET `, so
the byte after the blank (the `/` of a path) is left out. -/
theorem errorCase_fileName (line f os : List Char) (hlen : line.length < 2 ^ 31)
    (hline : line = "GET ".toList ++ f ++ "HTTP/1.1".toList) (hf : f ≠ [])
    (hhttp : ¬ "HTTP/1.1".toList <:+: f) :
    errorCase line os
      = ⟨os ++ toHex ("Invalid request: ".toList ++ f.tail).length ++ "\r\n".toList
          ++ "Invalid request: ".toList ++ f.tail ++ "\n".toList ++ "\r\n".toList
          ++ "0\r\n\r\n".toList, none⟩ := by
  obtain ⟨c, f2, rfl⟩ := List.exists_cons_of_ne_nil hf
  have hl : line.length = 4 + (f2.length + 1) + 8 := by
    rw [hline]
    simp only [List.length_append, List.length_cons]
    rfl
  have hp1 : find line "GET ".toList = 0 := by
    rw [hline, List.append_assoc]
    exact find_get_front _
  have hp2 : find line "HTTP/1.1".toList = 4 + (f2.length + 1) := by
    rw [hline]
    exact find_http_after (c :: f2) hhttp
  have e1 : toSizeT (toInt (find line "GET ".toList) + 5) = 5 := by
    rw [hp1]
    decide
  have e2 : toSizeT (toInt (find line "HTTP/1.1".toList) - toInt (find line "GET ".toList) - 5)
      = f2.length := by
    rw [hp1, hp2, toInt_of_lt _ (by omega), toInt_of_lt _ (by decide)]
    have : ((4 + (f2.length + 1) : Nat) : Int) - ((0 : Nat) : Int) - 5 = (f2.length : Int) := by
      push_cast
      ring
    rw [this]
    exact toSizeT_of_nonneg _ (by omega)
  have hsub : substr line 5 f2.length = .ok f2 := by
    have := substr_append ("GET ".toList ++ [c]) f2 "HTTP/1.1".toList
    rw [hline]
    simpa using this
  rw [← e1, ← e2] at hsub
  rw [errorCase_of_substr line os f2 hsub]
  rfl

/-- Counterexamples to C10 as stated.  On `GET /blah.txt HTTP/1.1` the text
between `GET ` and `HTTP/1.1` is `/blah.txt `, it holds neither `GET ` nor
`HTTP/1.1`, the line does not start with `GET /cgi-bin/exec`, and the chunk
text written is `Invalid request: blah.txt `, without the `/`.  On the line
`GET `, `/`, `2 ^ 31` bytes `z`, `.html `, `HTTP/1.1` the position of
`HTTP/1.1` does not fit the `int` that holds it, the count of the `substr`
call is negative, and the chunk text runs to the end of the line: it is
`Invalid request: ` followed by the bytes `z`, `.html ` and `HTTP/1.1`. -/
theorem errorCase_fileName_differs :
    ("GET /blah.txt HTTP/1.1".toList
        = "GET ".toList ++ "/blah.txt ".toList ++ "HTTP/1.1".toList ∧
      ¬ "GET ".toList <:+: "/blah.txt ".toList ∧
      ¬ "HTTP/1.1".toList <:+: "/blah.txt ".toList ∧
      "GET /blah.txt HTTP/1.1".toList.take 17 ≠ "GET /cgi-bin/exec".toList ∧
      errorCase "GET /blah.txt HTTP/1.1".toList []
        = ⟨"1a\r\n".toList ++ "Invalid request: blah.txt ".toList ++ "\n\r\n0\r\n\r\n".toList,
            none⟩ ∧
      ¬ ("1a\r\n".toList ++ "Invalid request: /blah.txt ".toList)
          <+: (errorCase "GET /blah.txt HTTP/1.1".toList []).os ∧
      ¬ "Invalid request: /blah.txt ".toList
          <:+: (errorCase "GET /blah.txt HTTP/1.1".toList []).os) ∧
    (2 ^ 31
        ≤ ("GET ".toList ++ ('/' :: (longPad ++ ".html ".toList)) ++ "HTTP/1.1".toList).length ∧
      ¬ "GET ".toList <:+: '/' :: (longPad ++ ".html ".toList) ∧
      ¬ "HTTP/1.1".toList <:+: '/' :: (longPad ++ ".html ".toList) ∧
      ("GET ".toList ++ ('/' :: (longPad ++ ".html ".toList)) ++ "HTTP/1.1".toList).take 17
        ≠ "GET /cgi-bin/exec".toList ∧
      errorCase ("GET ".toList ++ ('/' :: (longPad ++ ".html ".toList)) ++ "HTTP/1.1".toList) []
        = ⟨toHex ("Invalid request: ".toList ++ (longPad ++ ".html HTTP/1.1".toList)).length
            ++ "\r\n".toList ++ "Invalid request: ".toList
            ++ (longPad ++ ".html HTTP/1.1".toList) ++ "\n".toList ++ "\r\n".toList
            ++ "0\r\n\r\n".toList, none⟩ ∧
      "Invalid request: ".toList ++ (longPad ++ ".html HTTP/1.1".toList)
        ≠ "Invalid request: ".toList ++ ('/' :: (longPad ++ ".html ".toList)).tail) := by
  have hcons : ∀ r : List Char, '/' :: r = ['/'] ++ r := fun _ => rfl
  have hlenf : ('/' :: (longPad ++ ".html ".toList)).length = 2 ^ 31 + 7 := by
    rw [List.length_cons, List.length_append, longPad_length]
    rfl
  have hshape : "GET ".toList ++ ('/' :: (longPad ++ ".html ".toList)) ++ "HTTP/1.1".toList
      = "GET /".toList ++ longPad ++ ".html HTTP/1.1".toList := by
    have e : ".html HTTP/1.1".toList = ".html ".toList ++ "HTTP/1.1".toList := by decide
    rw [get_slash_append, e]
    simp only [List.append_assoc]
  have hlen : ("GET ".toList ++ ('/' :: (longPad ++ ".html ".toList))
      ++ "HTTP/1.1".toList).length = 2 ^ 31 + 19 := by
    rw [hshape, pad_line_length]
    rfl
  have hget : ¬ "GET ".toList <:+: '/' :: (longPad ++ ".html ".toList) := by
    rw [hcons, ← List.append_assoc]
    exact not_infix_pad_line "GET ".toList _ _ (by decide) (by decide) (by decide) (by decide)
  have hhttp : ¬ "HTTP/1.1".toList <:+: '/' :: (longPad ++ ".html ".toList) := by
    rw [hcons, ← List.append_assoc]
    exact not_infix_pad_line "HTTP/1.1".toList _ _ (by decide) (by decide) (by decide)
      (by decide)
  have hp1 : find ("GET ".toList ++ ('/' :: (longPad ++ ".html ".toList))
      ++ "HTTP/1.1".toList) "GET ".toList = 0 := by
    rw [List.append_assoc]
    exact find_get_front _
  have hp2 : find ("GET ".toList ++ ('/' :: (longPad ++ ".html ".toList))
      ++ "HTTP/1.1".toList) "HTTP/1.1".toList = 2 ^ 31 + 11 := by
    rw [find_http_after _ hhttp, hlenf]
    omega
  have e1 : toSizeT (toInt (find ("GET ".toList ++ ('/' :: (longPad ++ ".html ".toList))
      ++ "HTTP/1.1".toList) "GET ".toList) + 5) = 5 := by
    rw [hp1]
    decide
  have e2 : 2 ^ 63 ≤ toSizeT (toInt (find ("GET ".toList ++ ('/' :: (longPad ++ ".html ".toList))
        ++ "HTTP/1.1".toList) "HTTP/1.1".toList)
      - toInt (find ("GET ".toList ++ ('/' :: (longPad ++ ".html ".toList))
        ++ "HTTP/1.1".toList) "GET ".toList) - 5) := by
    rw [hp1, hp2]
    decide
  have hsub := substr_to_end
    ("GET ".toList ++ ('/' :: (longPad ++ ".html ".toList)) ++ "HTTP/1.1".toList) 5 _
    (le_of_le_of_eq (by decide) hlen.symm)
    (le_of_eq_of_le hlen (le_trans (by decide) e2))
  rw [← e1] at hsub
  have hdrop : ("GET ".toList ++ ('/' :: (longPad ++ ".html ".toList))
      ++ "HTTP/1.1".toList).drop 5 = longPad ++ ".html HTTP/1.1".toList := by
    have h5 : "GET /".toList.length = 5 := rfl
    rw [hshape, List.append_assoc]
    exact List.drop_left' h5
  refine ⟨by decide, ?_, hget, hhttp, ?_, ?_, ?_⟩
  · rw [hlen]
    omega
  · rw [hshape]
    exact take_ne_exec_of_pad "GET /".toList "cgi-bin/exec".toList _ (by decide) (by decide)
      (by decide)
  · rw [errorCase_of_substr _ [] _ hsub, e1, hdrop, List.nil_append]
  · intro h
    have h2 := congrArg List.length h
    rw [List.tail_cons, List.length_append, List.length_append, List.length_append,
      List.length_append, longPad_length] at h2
    have l1 : ".html HTTP/1.1".toList.length = 14 := rfl
    have l2 : ".html ".toList.length = 6 := rfl
    omega

/-- Witness of C10 as amended: the request line `GET /blah.txt HTTP/1.1`. -/
theorem errorCase_fileName_witness :
    errorCase "GET /blah.txt HTTP/1.1".toList []
      = ⟨[] ++ toHex ("Invalid request: ".toList ++ "/blah.txt ".toList.tail).length
          ++ "\r\n".toList ++ "Invalid request: ".toList ++ "/blah.txt ".toList.tail
          ++ "\n".toList ++ "\r\n".toList ++ "0\r\n\r\n".toList, none⟩ :=
  errorCase_fileName "GET /blah.txt HTTP/1.1".toList "/blah.txt ".toList [] (by decide)
    (by decide) (by decide) (by decide)

/-- C11, as amended. A malformed execution request stays on the execution
path: for every request line that starts with `GET /cgi-bin/exec`, whatever
anchors it lacks or has out of order, `stringProcessing` writes the status
line `HTTP/1.1 200 OK` and the header block and never the not-found status
line; when `extractData` returns, its result, which is not empty, is the
command handed to the process runner, and when `extractData` raises an
exception the request ends after the header block. -/
theorem malformed_exec_request (child : List (List Char) → List Char × Int) (line : List Char)
    (hexec : line.take 17 = "GET /cgi-bin/exec".toList) :
    ("HTTP/1.1 200 OK\r\n".toList
        ++ "Content-Type: text/plain\r\nTransfer-Encoding: chunked\r\nConnection: Close\r\n\r\n".toList)
      <+: (stringProcessing child line []).os ∧
    ¬ "HTTP/1.1 404 Not Found\r\n".toList <+: (stringProcessing child line []).os ∧
    (∀ result, extractData line = .ok result →
      result ≠ [] ∧
      stringProcessing child line []
        = ⟨OutputChildProcess child result
            ("HTTP/1.1 200 OK\r\n".toList
              ++ "Content-Type: text/plain\r\nTransfer-Encoding: chunked\r\nConnection: Close\r\n\r\n".toList),
          none⟩) ∧
    (∀ e, extractData line = .error e →
      stringProcessing child line []
        = ⟨"HTTP/1.1 200 OK\r\n".toList
            ++ "Content-Type: text/plain\r\nTransfer-Encoding: chunked\r\nConnection: Close\r\n\r\n".toList,
          some e⟩) := by
  have hnot : ∀ rest : List Char,
      ¬ "HTTP/1.1 404 Not Found\r\n".toList <+: "HTTP/1.1 200 OK\r\n".toList ++ rest := by
    intro rest h
    have h1 := List.prefix_iff_eq_take.mp h
    have h2 := congrArg (List.take 10) h1
    rw [List.take_take, List.take_append_of_le_length (by decide)] at h2
    revert h2
    decide
  rw [stringProcessing_exec child line [] hexec, printRegular_eq, List.nil_append]
  cases he : extractData line with
  | error e =>
    refine ⟨List.prefix_refl _, ?_, ?_, ?_⟩
    · exact hnot _
    · intro result hr
      exact absurd hr (by simp)
    · intro e2 he2
      injection he2 with he2
      rw [he2]
  | ok result =>
    dsimp only
    rw [OutputChildProcess_eq]
    refine ⟨List.prefix_append _ _, ?_, ?_, ?_⟩
    · rw [List.append_assoc]
      exact hnot _
    · intro result2 hr
      injection hr with hr
      subst hr
      refine ⟨?_, by rw [OutputChildProcess_eq]⟩
      obtain ⟨decCmd, args, hres⟩ := extractData_ok_cons line result he
      rw [hres]
      exact List.cons_ne_nil _ _
    · intro e2 he2
      exact absurd he2 (by simp)

/-- Counterexample to C11 as stated: the request line `GET /cgi-bin/exec`
starts with `GET /cgi-bin/exec` and holds none of the anchors `=`, `&`,
`args=`, `HTTP`; `extractData` returns the command `GET /cgi-bin/exec` with
the argument `/cgi-bin/exec`, the process runner is started with it, and the
response is a `200 OK` response with the output of the child. -/
theorem malformed_exec_request_runs :
    "GET /cgi-bin/exec".toList.take 17 = "GET /cgi-bin/exec".toList ∧
    ¬ "=".toList <:+: "GET /cgi-bin/exec".toList ∧
    ¬ "&".toList <:+: "GET /cgi-bin/exec".toList ∧
    ¬ "args=".toList <:+: "GET /cgi-bin/exec".toList ∧
    ¬ "HTTP".toList <:+: "GET /cgi-bin/exec".toList ∧
    extractData "GET /cgi-bin/exec".toList
      = .ok ["GET /cgi-bin/exec".toList, "/cgi-bin/exec".toList] ∧
    stringProcessing (fun argv => (argv.headD [] ++ ['\n'], 0)) "GET /cgi-bin/exec".toList []
      = ⟨"HTTP/1.1 200 OK\r\nContent-Type: text/plain\r\nTransfer-Encoding: chunked\r\nConnection: Close\r\n\r\n".toList
          ++ "12\r\nGET /cgi-bin/exec\n\r\nc\r\nExit code: 0\r\n0\r\n\r\n".toList, none⟩ := by
  decide

/-- Witness of C11 as amended: the request line `GET /cgi-bin/exec`. -/
theorem malformed_exec_request_witness :
    ¬ "HTTP/1.1 404 Not Found\r\n".toList
      <+: (stringProcessing (fun _ => ([], 0)) "GET /cgi-bin/exec".toList []).os :=
  (malformed_exec_request (fun _ => ([], 0)) "GET /cgi-bin/exec".toList (by decide)).2.1

/-- C12, as amended. Malformed percent-encoding raises when `stoi` finds no
number: `url_decode` fails, with `invalid_argument`, on every input in which
some `%` reached by the left-to-right scan is followed by no byte, or by a
first byte that is not a hexadecimal digit and is not a white-space byte or a
sign with a hexadecimal digit right after it; on every other input it returns
a string. -/
theorem url_decode_malformed (s : List Char) :
    (BadEscape s = true → url_decode s = .error .invalid_argument) ∧
    (BadEscape s = false → ∃ r, url_decode s = .ok r) := by
  rcases url_decode_cases s with ⟨hb, hd⟩ | ⟨hb, r, hd⟩
  · exact ⟨fun _ => hd, fun h => absurd (hb.symm.trans h) (by decide)⟩
  · exact ⟨fun h => absurd (hb.symm.trans h) (by decide), fun _ => ⟨r, hd⟩⟩

/-- Witness of C12 as amended: `a%zz`, where no hexadecimal digit follows the
`%`, and `100%`, where nothing follows it. -/
theorem url_decode_malformed_witness :
    url_decode "a%zz".toList = .error .invalid_argument ∧
    url_decode "100%".toList = .error .invalid_argument :=
  ⟨(url_decode_malformed "a%zz".toList).1 (by decide),
   (url_decode_malformed "100%".toList).1 (by decide)⟩

/-- Counterexample to C12 as stated: in `%4g` the second byte after the `%` is
not a hexadecimal digit, and in `%4` fewer than two bytes are left, yet
`url_decode` returns the one byte with value 4 for both; in `% 4` the first
byte after the `%` is not a hexadecimal digit, with the same result. -/
theorem url_decode_lenient :
    isxdigit 'g' = false ∧ WellEncoded "%4g".toList = false ∧
    url_decode "%4g".toList = .ok [Char.ofNat 4] ∧
    WellEncoded "%4".toList = false ∧
    url_decode "%4".toList = .ok [Char.ofNat 4] ∧
    isxdigit ' ' = false ∧ WellEncoded "% 4".toList = false ∧
    url_decode "% 4".toList = .ok [Char.ofNat 4] := by
  decide

/-- C13. Terminator suffix: whenever `stringProcessing` completes, on the
execution path and on the not-found path alike, the bytes written end with
the zero-chunk terminator `0\r\n\r\n`. -/
theorem terminator_suffix (child : List (List Char) → List Char × Int) (line : List Char)
    (h : (stringProcessing child line []).failure = none) :
    "0\r\n\r\n".toList <:+ (stringProcessing child line []).os := by
  by_cases hp : line.take 17 = "GET /cgi-bin/exec".toList
  · rw [stringProcessing_exec child line [] hp] at h ⊢
    cases he : extractData line with
    | error e =>
      rw [he] at h
      simp at h
    | ok result =>
      dsimp only
      rw [OutputChildProcess_eq]
      exact (List.suffix_append _ _).trans (List.suffix_append _ _)
  · rw [stringProcessing_not_found child line [] hp] at h ⊢
    cases hsub : substr line (toSizeT (toInt (find line "GET ".toList) + 5))
          (toSizeT (toInt (find line "HTTP/1.1".toList) - toInt (find line "GET ".toList) - 5)) with
    | error e =>
      rw [errorCase_of_error line _ e hsub] at h
      simp at h
    | ok fileName =>
      rw [errorCase_of_substr line _ fileName hsub]
      exact ⟨_, rfl⟩

/-- Witness of C13: an execution request with the child output `hi` and a
request for a file. -/
theorem terminator_suffix_witness :
    "0\r\n\r\n".toList
      <:+ (stringProcessing (fun _ => ("hi\n".toList, 0))
            "GET /cgi-bin/exec?cmd=echo&args=hi HTTP/1.1".toList []).os ∧
    "0\r\n\r\n".toList
      <:+ (stringProcessing (fun _ => ([], 0)) "GET /blah.txt HTTP/1.1".toList []).os :=
  ⟨terminator_suffix (fun _ => ("hi\n".toList, 0))
      "GET /cgi-bin/exec?cmd=echo&args=hi HTTP/1.1".toList (by decide),
   terminator_suffix (fun _ => ([], 0)) "GET /blah.txt HTTP/1.1".toList (by decide)⟩

/-- C14. No empty body chunk: the body that `OutputChildProcess` writes decodes
to chunks whose length fields are all at least 1, the last of them, the
exit-status chunk, with a length field of at least 12; and `errorCase` either
raises `out_of_range` before it writes anything, or writes a chunk whose
length field is at least 17. -/
theorem no_empty_chunk (child : List (List Char) → List Char × Int)
    (myVec : List (List Char)) (line os : List Char) :
    (∃ body lineChunks exitChunk,
      OutputChildProcess child myVec os = os ++ body ∧
      chunkedDecode body = some (lineChunks ++ [exitChunk]) ∧
      lineChunks.length = (getlines (child myVec).1).length ∧
      (∀ p ∈ lineChunks, 1 ≤ p.1) ∧ 12 ≤ exitChunk.1) ∧
    (errorCase line os = ⟨os, some .out_of_range⟩ ∨
      ∃ n rest, 17 ≤ n ∧ lowerHexValue (toHex n) = n ∧
        errorCase line os = ⟨os ++ toHex n ++ "\r\n".toList ++ rest, none⟩) := by
  constructor
  · refine ⟨_, ((getlines (child myVec).1).map (fun l => l ++ ['\n'])).map (fun c => (c.length, c)),
      (("Exit code: ".toList ++ to_string (child myVec).2).length,
        "Exit code: ".toList ++ to_string (child myVec).2),
      OutputChildProcess_eq child myVec os, ?_, by simp, ?_, exit_message_length _⟩
    · rw [chunkedDecode_frames]
      · simp
      · intro c hc
        rcases List.mem_append.mp hc with h | h
        · obtain ⟨l, -, rfl⟩ := List.mem_map.mp h
          simp
        · simp only [List.mem_singleton] at h
          subst h
          exact List.append_ne_nil_of_left_ne_nil (by decide) _
    · intro p hp
      simp only [List.map_map, List.mem_map, Function.comp] at hp
      obtain ⟨l, -, rfl⟩ := hp
      simp
  · by_cases hgt : line.length < toSizeT (toInt (find line "GET ".toList) + 5)
    · left
      exact errorCase_of_gt line os hgt
    · right
      obtain ⟨fileName, hsub⟩ : ∃ fileName,
          substr line (toSizeT (toInt (find line "GET ".toList) + 5))
            (toSizeT (toInt (find line "HTTP/1.1".toList) - toInt (find line "GET ".toList) - 5))
            = .ok fileName := ⟨_, substr_of_le line _ _ (Nat.not_lt.mp hgt)⟩
      rw [errorCase_of_substr line os fileName hsub]
      exact ⟨("Invalid request: ".toList ++ fileName).length,
        "Invalid request: ".toList ++ fileName ++ "\n".toList ++ "\r\n".toList
          ++ "0\r\n\r\n".toList,
        error_message_length _, lowerHexValue_toHex _, by simp only [List.append_assoc]⟩

/-- C15. Unquoted tokenization: for every decoded argument string without a
double quote, the tokens that `extractData` appends after the command are
exactly the maximal runs of bytes that are not white space, in order; leading,
trailing and repeated white space gives no empty token, and a string of white
space only, or the empty string, gives no token. -/
theorem tokenize_unquoted (s : List Char) (hq : '"' ∉ s) :
    tokenize s = nonSpaceRuns s ∧ (∀ w ∈ tokenize s, w ≠ []) ∧
    ((∀ c ∈ s, isspace c = true) → tokenize s = []) := by
  have h := tokenize_unquoted_aux s.length s (le_refl _) hq
  refine ⟨h, ?_, ?_⟩
  · intro w hw
    rw [h] at hw
    have := (List.mem_filter.mp hw).2
    intro hnil
    rw [hnil] at this
    exact absurd this (by decide)
  · intro hall
    rw [h, nonSpaceRuns_dropWhile]
    have : s.dropWhile isspace = [] := by
      rw [List.dropWhile_eq_nil_iff]
      exact hall
    rw [this]
    rfl

/-- Witness of C15: the string `  hello   big world ` has the three tokens
`hello`, `big` and `world`. -/
theorem tokenize_unquoted_witness :
    tokenize "  hello   big\tworld ".toList = ["hello".toList, "big".toList, "world".toList] ∧
    nonSpaceRuns "  hello   big\tworld ".toList
      = ["hello".toList, "big".toList, "world".toList] :=
  ⟨((tokenize_unquoted "  hello   big\tworld ".toList (by decide)).1).trans (by decide),
   by decide⟩

/-- C17. The decoded command is not empty: whenever `extractData` returns a
result, its element 0 is the `url_decode` of the command segment that the
first `substr` call cut out of the line, and the elements after it are
exactly the tokens of the decoded argument segment. -/
theorem extractData_nonempty (line : List Char) (result : List (List Char))
    (h : extractData line = .ok result) :
    1 ≤ result.length ∧
    ∃ cmd decCmd argm decArgm,
      substr line (toSizeT (toInt (find line "=".toList) + 1))
        (toSizeT (toInt (find line "&".toList) - toInt (find line "=".toList) - 1)) = .ok cmd ∧
      url_decode cmd = .ok decCmd ∧
      substr line (toSizeT (toInt (find line "args=".toList) + 5))
        (toSizeT (toInt (find line "HTTP".toList) - toInt (find line "args=".toList) - 5))
        = .ok argm ∧
      url_decode argm = .ok decArgm ∧
      result.head? = some decCmd ∧
      result = decCmd :: tokenize decArgm := by
  rw [extractData_eq] at h
  cases h1 : substr line (toSizeT (toInt (find line "=".toList) + 1))
      (toSizeT (toInt (find line "&".toList) - toInt (find line "=".toList) - 1)) with
  | error e =>
    rw [h1] at h
    simp at h
  | ok cmd =>
    rw [h1] at h
    dsimp only at h
    cases h2 : url_decode cmd with
    | error e =>
      rw [h2] at h
      simp at h
    | ok decCmd =>
      rw [h2] at h
      dsimp only at h
      cases h3 : substr line (toSizeT (toInt (find line "args=".toList) + 5))
          (toSizeT (toInt (find line "HTTP".toList) - toInt (find line "args=".toList) - 5)) with
      | error e =>
        rw [h3] at h
        simp at h
      | ok argm =>
        rw [h3] at h
        dsimp only at h
        cases h4 : url_decode argm with
        | error e =>
          rw [h4] at h
          simp at h
        | ok decArgm =>
          rw [h4] at h
          simp only [Except.ok.injEq] at h
          subst h
          exact ⟨by simp, cmd, decCmd, argm, decArgm, rfl, h2, rfl, h4, rfl, rfl⟩

/-- Witness of C17: the request line
`GET /cgi-bin/exec?cmd=%2Fbin%2Fecho&args=hello%20world HTTP/1.1`. -/
theorem extractData_nonempty_witness :
    extractData "GET /cgi-bin/exec?cmd=%2Fbin%2Fecho&args=hello%20world HTTP/1.1".toList
      = .ok ["/bin/echo".toList, "hello".toList, "world".toList] ∧
    1 ≤ ["/bin/echo".toList, "hello".toList, "world".toList].length :=
  ⟨by decide,
   (extractData_nonempty
      "GET /cgi-bin/exec?cmd=%2Fbin%2Fecho&args=hello%20world HTTP/1.1".toList
      ["/bin/echo".toList, "hello".toList, "world".toList] (by decide)).1⟩

/-- C18, as amended. Substring extraction on the execution path is in range
on lines shorter than `2 ^ 31` bytes: for every such request line that starts
with `GET /cgi-bin/exec`, whatever anchors are missing or out of order, both
`substr` calls of `extractData` start at a position not greater than the
length of the line and return a segment; `extractData` never raises
`out_of_range`, and when it fails, `url_decode` has raised `invalid_argument`
on one of the two segments. -/
theorem extractData_in_range (line : List Char)
    (hexec : line.take 17 = "GET /cgi-bin/exec".toList) (hlen : line.length < 2 ^ 31) :
    toSizeT (toInt (find line "=".toList) + 1) ≤ line.length ∧
    toSizeT (toInt (find line "args=".toList) + 5) ≤ line.length ∧
    extractData line ≠ .error .out_of_range ∧
    ∃ cmd argm,
      substr line (toSizeT (toInt (find line "=".toList) + 1))
        (toSizeT (toInt (find line "&".toList) - toInt (find line "=".toList) - 1)) = .ok cmd ∧
      substr line (toSizeT (toInt (find line "args=".toList) + 5))
        (toSizeT (toInt (find line "HTTP".toList) - toInt (find line "args=".toList) - 5))
        = .ok argm ∧
      ∀ e, extractData line = .error e →
        e = .invalid_argument ∧ (url_decode cmd = .error e ∨ url_decode argm = .error e) := by
  have h17 := length_of_exec line hexec
  have h1 : toSizeT (toInt (find line "=".toList) + ((1 : Nat) : Int)) ≤ line.length :=
    start_in_range line "=".toList 1 (by decide) (le_refl _) (by decide) hlen (by omega)
  have h5 : toSizeT (toInt (find line "args=".toList) + ((5 : Nat) : Int)) ≤ line.length :=
    start_in_range line "args=".toList 5 (by decide) (by decide) (by decide) hlen (by omega)
  simp only [Nat.cast_one, Nat.cast_ofNat] at h1 h5
  obtain ⟨cmd, hcmd⟩ : ∃ cmd,
      substr line (toSizeT (toInt (find line "=".toList) + 1))
        (toSizeT (toInt (find line "&".toList) - toInt (find line "=".toList) - 1)) = .ok cmd :=
    ⟨_, substr_of_le line _ _ h1⟩
  obtain ⟨argm, hargm⟩ : ∃ argm,
      substr line (toSizeT (toInt (find line "args=".toList) + 5))
        (toSizeT (toInt (find line "HTTP".toList) - toInt (find line "args=".toList) - 5))
        = .ok argm :=
    ⟨_, substr_of_le line _ _ h5⟩
  have hfail : ∀ e, extractData line = .error e →
      e = .invalid_argument ∧ (url_decode cmd = .error e ∨ url_decode argm = .error e) := by
    intro e he
    rw [extractData_eq, hcmd] at he
    dsimp only at he
    cases h2 : url_decode cmd with
    | error e2 =>
      rw [h2] at he
      injection he with he
      subst he
      exact ⟨url_decode_error cmd e2 h2, Or.inl rfl⟩
    | ok decCmd =>
      rw [h2, hargm] at he
      dsimp only at he
      cases h4 : url_decode argm with
      | error e4 =>
        rw [h4] at he
        injection he with he
        subst he
        exact ⟨url_decode_error argm e4 h4, Or.inr rfl⟩
      | ok decArgm =>
        rw [h4] at he
        exact absurd he (by simp)
  refine ⟨h1, h5, ?_, cmd, argm, hcmd, hargm, hfail⟩
  intro hout
  exact absurd (hfail _ hout).1 (by decide)

/-- Witness of C18: the request line `GET /cgi-bin/exec`, without any of the
anchors. -/
theorem extractData_in_range_witness :
    extractData "GET /cgi-bin/exec".toList ≠ .error .out_of_range :=
  (extractData_in_range "GET /cgi-bin/exec".toList (by decide) (by decide)).2.2.1

/-- Counterexample to C18 as stated: the request line `GET /cgi-bin/exec?`,
`2 ^ 31` bytes `z`, `cmd=ls&args=-l HTTP/1.1` starts with
`GET /cgi-bin/exec`; the position of its first `=` does not fit the `int`
that holds it, the start position of the first `substr` call is greater than
the length of the line, and `extractData` raises `out_of_range`. -/
theorem extractData_in_range_long_line :
    2 ^ 31
      ≤ ("GET /cgi-bin/exec?".toList ++ longPad ++ "cmd=ls&args=-l HTTP/1.1".toList).length ∧
    ("GET /cgi-bin/exec?".toList ++ longPad ++ "cmd=ls&args=-l HTTP/1.1".toList).take 17
      = "GET /cgi-bin/exec".toList ∧
    ("GET /cgi-bin/exec?".toList ++ longPad ++ "cmd=ls&args=-l HTTP/1.1".toList).length
      < toSizeT (toInt (find
          ("GET /cgi-bin/exec?".toList ++ longPad ++ "cmd=ls&args=-l HTTP/1.1".toList)
          "=".toList) + 1) ∧
    extractData ("GET /cgi-bin/exec?".toList ++ longPad ++ "cmd=ls&args=-l HTTP/1.1".toList)
      = .error .out_of_range := by
  have hsplit : "cmd=ls&args=-l HTTP/1.1".toList
      = "cmd".toList ++ "=".toList ++ "ls&args=-l HTTP/1.1".toList := by decide
  have h := extractData_long_line "GET /cgi-bin/exec?".toList "cmd".toList
    "ls&args=-l HTTP/1.1".toList (by decide) (by decide) (by decide)
  refine ⟨?_, ?_, ?_, ?_⟩
  · rw [pad_line_length]
    omega
  · have e : "GET /cgi-bin/exec?".toList = "GET /cgi-bin/exec".toList ++ "?".toList := by decide
    rw [e, List.append_assoc, List.append_assoc]
    exact List.take_left' rfl
  · rw [hsplit]
    simp only [List.append_assoc] at h ⊢
    exact h.1
  · rw [hsplit]
    simp only [List.append_assoc] at h ⊢
    exact h.2

/-- C19, as amended. A missing or misplaced `&` makes the command run to the
end of the line: on every request line shorter than `2 ^ 31` bytes whose
first `=` stands after `pre` and before `post`, when the line holds no `&` or
holds one within `pre`, the signed length `pos2 - pos1 - 1` is negative,
becomes a count of at least `2 ^ 63`, and the command segment that
`extractData` cuts out is all of `post`: a failure of `url_decode post` is
the failure of `extractData`, and the first element of a result of
`extractData` is the decoded `post`.  Likewise, when the first `args=` stands
after `pre2` and before `post2` and an `HTTP` lies within `pre2`, the signed
length `pos4 - pos3 - 5` is negative and the argument segment is all of
`post2`: `extractData` fails when `url_decode post2` fails, and the elements
of a result after the first are the tokens of the decoded `post2`. -/
theorem negative_length_to_end (line : List Char) (hlen : line.length < 2 ^ 31) :
    (∀ pre post, line = pre ++ ['='] ++ post → '=' ∉ pre → ('&' ∉ line ∨ '&' ∈ pre) →
      toInt (find line "&".toList) - toInt (find line "=".toList) - 1 < 0 ∧
      2 ^ 63 ≤ toSizeT (toInt (find line "&".toList) - toInt (find line "=".toList) - 1) ∧
      substr line (toSizeT (toInt (find line "=".toList) + 1))
        (toSizeT (toInt (find line "&".toList) - toInt (find line "=".toList) - 1))
        = .ok post ∧
      (∀ e, url_decode post = .error e → extractData line = .error e) ∧
      (∀ result, extractData line = .ok result →
        ∃ decCmd, url_decode post = .ok decCmd ∧ result.head? = some decCmd)) ∧
    (∀ pre2 post2, line = pre2 ++ "args=".toList ++ post2 →
      ¬ "args=".toList <:+: pre2 ++ "args".toList → "HTTP".toList <:+: pre2 →
      toInt (find line "HTTP".toList) - toInt (find line "args=".toList) - 5 < 0 ∧
      2 ^ 63 ≤ toSizeT (toInt (find line "HTTP".toList) - toInt (find line "args=".toList) - 5) ∧
      substr line (toSizeT (toInt (find line "args=".toList) + 5))
        (toSizeT (toInt (find line "HTTP".toList) - toInt (find line "args=".toList) - 5))
        = .ok post2 ∧
      (∀ e, url_decode post2 = .error e → ∃ e2, extractData line = .error e2) ∧
      (∀ result, extractData line = .ok result →
        ∃ decArgm, url_decode post2 = .ok decArgm ∧ result.tail = tokenize decArgm)) := by
  constructor
  · intro pre post hline heq hamp
    have hl : line.length = pre.length + 1 + post.length := by
      rw [hline]
      simp only [List.length_append, List.length_singleton]
    have hp1 : find line "=".toList = pre.length := by
      have := find_first ['='] pre post (by simp) (by simpa [singleton_infix_iff] using heq)
      rw [hline]
      exact this
    have hpos1 : toInt (find line "=".toList) = (pre.length : Int) := by
      rw [hp1, toInt_of_lt _ (by omega)]
    have hpos2 : ∃ p2 : Int, toInt (find line "&".toList) = p2 ∧ -1 ≤ p2 ∧ p2 < pre.length := by
      rcases hamp with hno | hin
      · refine ⟨-1, ?_, le_refl _, by omega⟩
        rw [find_absent line "&".toList (by simpa [singleton_infix_iff] using hno), toInt_npos]
      · obtain ⟨a, b, hab⟩ := List.mem_iff_append.mp hin
        obtain ⟨p, hp, hle⟩ := find_before line "&".toList a (b ++ ['='] ++ post) pre.length
          (by decide) hlen (by rw [hline, hab]; simp) (by rw [hab]; simp)
        refine ⟨p, hp, by omega, ?_⟩
        have : "&".toList.length = 1 := rfl
        omega
    obtain ⟨p2, hp2, hlow, hhigh⟩ := hpos2
    have hneg : toInt (find line "&".toList) - toInt (find line "=".toList) - 1 < 0 := by
      rw [hp2, hpos1]
      omega
    have hbig := toSizeT_of_neg _ hneg (by rw [hp2, hpos1]; omega)
    have hsub : substr line (toSizeT (toInt (find line "=".toList) + 1))
        (toSizeT (toInt (find line "&".toList) - toInt (find line "=".toList) - 1))
        = .ok post := by
      have hstart : toSizeT (toInt (find line "=".toList) + 1) = pre.length + 1 := by
        rw [hpos1]
        exact_mod_cast toSizeT_of_nonneg (pre.length + 1) (by omega)
      rw [hstart, substr_to_end line _ _ (by omega) (by omega), hline]
      simp
    exact ⟨hneg, hbig, hsub, extractData_cmd line post hsub⟩
  · intro pre2 post2 hline hfirst hhttp
    have hl : line.length = pre2.length + 5 + post2.length := by
      rw [hline]
      simp only [List.length_append]
      rfl
    have hp3 : find line "args=".toList = pre2.length := by
      have := find_first "args=".toList pre2 post2 (by decide) hfirst
      rw [hline]
      exact this
    have hpos3 : toInt (find line "args=".toList) = (pre2.length : Int) := by
      rw [hp3, toInt_of_lt _ (by omega)]
    obtain ⟨a, b, hab⟩ := hhttp
    obtain ⟨p, hp4, hle⟩ := find_before line "HTTP".toList a (b ++ "args=".toList ++ post2)
      pre2.length (by decide) hlen (by rw [hline, ← hab]; simp)
      (by rw [← hab]; simp only [List.length_append]; omega)
    have h4 : "HTTP".toList.length = 4 := rfl
    have hneg : toInt (find line "HTTP".toList) - toInt (find line "args=".toList) - 5 < 0 := by
      rw [hp4, hpos3]
      omega
    have hbig := toSizeT_of_neg _ hneg (by rw [hp4, hpos3]; omega)
    have hsub : substr line (toSizeT (toInt (find line "args=".toList) + 5))
        (toSizeT (toInt (find line "HTTP".toList) - toInt (find line "args=".toList) - 5))
        = .ok post2 := by
      have hstart : toSizeT (toInt (find line "args=".toList) + 5) = pre2.length + 5 := by
        rw [hpos3]
        exact_mod_cast toSizeT_of_nonneg (pre2.length + 5) (by omega)
      rw [hstart, substr_to_end line _ _ (by omega) (by omega), hline]
      have e : pre2.length + 5 = (pre2 ++ "args=".toList).length := by
        simp only [List.length_append]
        rfl
      rw [e, List.drop_left]
    exact ⟨hneg, hbig, hsub, extractData_argm line post2 hsub⟩

/-- Counterexample to C19 as stated: the request line `GET /cgi-bin/exec?`,
`2 ^ 31` bytes `z`, `cmd=ls HTTP/1.1` holds a `=` and no `&`; the position of
the `=` becomes a negative `int`, so the signed length `pos2 - pos1 - 1` is
not negative, and `extractData` raises `out_of_range` instead of cutting out
the rest of the line after the `=`. -/
theorem negative_length_long_line :
    2 ^ 31 ≤ ("GET /cgi-bin/exec?".toList ++ longPad ++ "cmd=ls HTTP/1.1".toList).length ∧
    "GET /cgi-bin/exec?".toList ++ longPad ++ "cmd=ls HTTP/1.1".toList
      = ("GET /cgi-bin/exec?".toList ++ longPad ++ "cmd".toList) ++ ['=']
          ++ "ls HTTP/1.1".toList ∧
    '=' ∉ "GET /cgi-bin/exec?".toList ++ longPad ++ "cmd".toList ∧
    '&' ∉ "GET /cgi-bin/exec?".toList ++ longPad ++ "cmd=ls HTTP/1.1".toList ∧
    0 ≤ toInt (find ("GET /cgi-bin/exec?".toList ++ longPad ++ "cmd=ls HTTP/1.1".toList)
            "&".toList)
        - toInt (find ("GET /cgi-bin/exec?".toList ++ longPad ++ "cmd=ls HTTP/1.1".toList)
            "=".toList) - 1 ∧
    extractData ("GET /cgi-bin/exec?".toList ++ longPad ++ "cmd=ls HTTP/1.1".toList)
      = .error .out_of_range := by
  have hsplit : "cmd=ls HTTP/1.1".toList
      = "cmd".toList ++ "=".toList ++ "ls HTTP/1.1".toList := by decide
  have hamp : '&' ∉ "GET /cgi-bin/exec?".toList ++ longPad ++ "cmd=ls HTTP/1.1".toList :=
    not_mem_pad_line '&' _ _ (by decide) (by decide) (by decide)
  have hline : "GET /cgi-bin/exec?".toList ++ longPad ++ "cmd=ls HTTP/1.1".toList
      = "GET /cgi-bin/exec?".toList ++ longPad ++ "cmd".toList ++ "=".toList
          ++ "ls HTTP/1.1".toList := by
    rw [hsplit]
    simp only [List.append_assoc]
  refine ⟨?_, hline, ?_, hamp, ?_, ?_⟩
  · rw [pad_line_length]
    omega
  · exact not_mem_pad_line '=' _ _ (by decide) (by decide) (by decide)
  · rw [find_absent _ "&".toList (by
        intro h
        exact hamp ((singleton_infix_iff '&' _).mp h)), toInt_npos, hline,
      find_eq_past_pad _ _ _ (by decide) (by decide),
      toInt_past _ (by omega) (by
        have h1 : "GET /cgi-bin/exec?".toList.length = 18 := rfl
        have h2 : "cmd".toList.length = 3 := rfl
        omega)]
    have h1 : "GET /cgi-bin/exec?".toList.length = 18 := rfl
    have h2 : "cmd".toList.length = 3 := rfl
    push_cast
    omega
  · rw [hline]
    exact (extractData_long_line "GET /cgi-bin/exec?".toList "cmd".toList
      "ls HTTP/1.1".toList (by decide) (by decide) (by decide)).2

/-- Witness of C19 as amended: a request line without `&`, whose command is
the decoded `ls HTTP/1.1`, and a request line with `HTTP` before `args=`,
whose arguments are the tokens of `b c`. -/
theorem negative_length_to_end_witness :
    extractData "GET /cgi-bin/exec?cmd=ls HTTP/1.1".toList
      = .ok ["ls HTTP/1.1".toList, "/cgi-bin/exec?cmd=ls".toList] ∧
    (∃ decCmd, url_decode "ls HTTP/1.1".toList = .ok decCmd ∧
      ["ls HTTP/1.1".toList, "/cgi-bin/exec?cmd=ls".toList].head? = some decCmd) ∧
    extractData "GET /cgi-bin/exec?HTTP&cmd=a&args=b c".toList
      = .ok ["a&args=b c".toList, "b".toList, "c".toList] ∧
    (∃ decArgm, url_decode "b c".toList = .ok decArgm ∧
      ["a&args=b c".toList, "b".toList, "c".toList].tail = tokenize decArgm) :=
  ⟨by decide,
   ((negative_length_to_end "GET /cgi-bin/exec?cmd=ls HTTP/1.1".toList (by decide)).1
      "GET /cgi-bin/exec?cmd".toList "ls HTTP/1.1".toList (by decide) (by decide)
      (Or.inl (by decide))).2.2.2.2 _ (by decide),
   by decide,
   ((negative_length_to_end "GET /cgi-bin/exec?HTTP&cmd=a&args=b c".toList (by decide)).2
      "GET /cgi-bin/exec?HTTP&cmd=a&".toList "b c".toList (by decide) (by decide)
      (by decide)).2.2.2.2 _ (by decide)⟩

end WebServer
